import Mathlib

/-!
# The trie router of `http_learn/demo6.go`

A shallow embedding of the router of `src/http_learn/demo6.go` (trie nodes,
`parsePattern`, `insert`, `search`, `addRoute`, `getRoute`, `ServeHTTP`) and
of the exact-key route map of `src/http_learn/demo5.go` (under `Demo5`),
followed by theorems about them.

Modelling conventions.

* A Go `string` is a `List Char`.  The only bytes the router inspects are
  `'/'`, `':'`, `'*'` and `'-'`, all ASCII, so on well-formed UTF-8 text the
  byte-wise operations of the source (`strings.Split`, `part[0]`, `part[1:]`,
  `strings.HasPrefix`, `strings.Join`, `+`) agree with the character-wise ones
  used here.
* A Go `map[string]V` is a finite partial function, modelled as
  `Str → Option V`; `m[k] = v` is `GoMap.set`.  The `roots` map never holds a
  nil pointer (`addRoute` only stores `&node{}`), so a present key has a node.
* A `HandlerFunc` is a value of an abstract type `H`; the theorems say which
  handler is called, not what it does.
* A `*node` is owned by exactly one parent (`children` are never shared), so
  the in-place mutation done by `insert` is modelled by returning the updated
  node; the child that `matchChild` points at is replaced in its position.
* `parts []string, height int` always denote the suffix `parts[height:]`;
  the recursion of `insert` and `search` is on that suffix.
* A run-time panic (index out of range, call of a nil function) is the
  outer `none` of an `Option` result.
-/

namespace Gee

/-- A Go string. -/
abbrev Str := List Char

/-- A Go `map[string]V`. -/
abbrev GoMap (V : Type) := Str → Option V

/-- The map made by `make(map[string]V)`. -/
def GoMap.empty {V : Type} : GoMap V := fun _ => none

/-- The assignment `m[k] = v`. -/
def GoMap.set {V : Type} (m : GoMap V) (k : Str) (v : V) : GoMap V :=
  fun k' => if k' = k then some v else m k'

/-- The call `strings.Split(s, "/")`. -/
def splitSlash : Str → List Str
  | [] => [[]]
  | c :: cs =>
    if c = '/' then [] :: splitSlash cs
    else
      match splitSlash cs with
      | [] => [[c]]
      | w :: ws => (c :: w) :: ws

/-- The call `strings.Join(xs, "/")`. -/
def joinSlash : List Str → Str
  | [] => []
  | [x] => x
  | x :: y :: xs => x ++ '/' :: joinSlash (y :: xs)

/-- The body of the `for _, item := range vs` loop of `parsePattern`: the
parts appended from the items still to be visited. -/
def parseLoop : List Str → List Str
  | [] => []
  | [] :: vs => parseLoop vs
  | (c :: item) :: vs =>
    if c = '*' then [c :: item] else (c :: item) :: parseLoop vs

/-- The function `parsePattern` (demo6.go:153). -/
def parsePattern (pattern : Str) : List Str :=
  parseLoop (splitSlash pattern)

/-- The type `node` (demo6.go:13). -/
inductive node where
  | mk (pattern : Str) (part : Str) (children : List node) (isWild : Bool)

/-- The field `pattern`. -/
def node.pattern : node → Str
  | .mk pattern _ _ _ => pattern

/-- The field `part`. -/
def node.part : node → Str
  | .mk _ part _ _ => part

/-- The field `children`. -/
def node.children : node → List node
  | .mk _ _ children _ => children

/-- The field `isWild`. -/
def node.isWild : node → Bool
  | .mk _ _ _ isWild => isWild

/-- The assignment `n.pattern = pattern`. -/
def node.setPattern (n : node) (pattern : Str) : node :=
  .mk pattern n.part n.children n.isWild

/-- The node `n` with its `children` slice replaced. -/
def node.setChildren (n : node) (children : List node) : node :=
  .mk n.pattern n.part children n.isWild

/-- The zero value `&node{}`. -/
def node.zero : node := .mk [] [] [] false

/-- The test `child.part == part || child.isWild` shared by `matchChild` and
`matchChildren`. -/
def childMatches (part : Str) (child : node) : Bool :=
  child.part == part || child.isWild

/-- The method `matchChild` (demo6.go:21): the first matching child, or nil. -/
def matchChild (n : node) (part : Str) : Option node :=
  n.children.find? (childMatches part)

/-- The method `matchChildren` (demo6.go:31): all matching children, in
order. -/
def matchChildren (n : node) (part : Str) : List node :=
  n.children.filter (childMatches part)

/-- The children slice after the node that `matchChild` returned has been
mutated into `child`: the first matching element is replaced in place. -/
def replaceMatched (part : Str) (child : node) : List node → List node
  | [] => []
  | c :: cs =>
    if childMatches part c then child :: cs else c :: replaceMatched part child cs

/-- The method `insert` (demo6.go:42), on the suffix `parts[height:]`.
`none` is the panic of `part[0]` on an empty `part`. -/
def insert (pattern : Str) : List Str → node → Option node
  | [], n => some (n.setPattern pattern)
  | part :: rest, n =>
    match matchChild n part with
    | some child =>
      (insert pattern rest child).map
        (fun child' => n.setChildren (replaceMatched part child' n.children))
    | none =>
      match part with
      | [] => none
      | c :: _ =>
        (insert pattern rest (.mk [] part [] (c == ':' || c == '*'))).map
          (fun child' => n.setChildren (n.children ++ [child']))

/-- The loop `for _, child := range children` of `search`: the first non-nil
result of `f` over the candidates. -/
def firstResult (f : node → Option node) : List node → Option node
  | [] => none
  | child :: children =>
    match f child with
    | some result => some result
    | none => firstResult f children

/-- The call `strings.HasPrefix(s, "*")`. -/
def startsWithStar : Str → Bool
  | c :: _ => c == '*'
  | [] => false

/-- The terminal branch of `search`: `nil` when `n.pattern == ""`. -/
def terminal (n : node) : Option node :=
  if n.pattern = [] then none else some n

/-- The method `search` (demo6.go:59), on the suffix `parts[height:]`;
`none` is the nil result. -/
def search : List Str → node → Option node
  | [], n => terminal n
  | part :: rest, n =>
    if startsWithStar n.part then terminal n
    else firstResult (search rest) (matchChildren n part)

/-- The type `router` (demo6.go:140), over an abstract handler type. -/
structure router (H : Type) where
  roots : GoMap node
  handlers : GoMap H

/-- The function `newRouter` (demo6.go:145). -/
def newRouter (H : Type) : router H :=
  ⟨GoMap.empty, GoMap.empty⟩

/-- The handler key `method + "-" + pattern`. -/
def routeKey (method pattern : Str) : Str :=
  method ++ '-' :: pattern

/-- The method `addRoute` (demo6.go:167); `none` is a panic inside
`insert`. -/
def addRoute {H : Type} (r : router H) (method pattern : Str) (handler : H) :
    Option (router H) :=
  let parts := parsePattern pattern
  let key := routeKey method pattern
  let roots := match r.roots method with
    | some _ => r.roots
    | none => r.roots.set method node.zero
  match roots method with
  | none => none
  | some root =>
    (insert pattern parts root).map
      (fun root' => ⟨roots.set method root', r.handlers.set key handler⟩)

/-- The parameter-binding loop of `getRoute` (demo6.go:198) from position
`index` on; `none` is an index-out-of-range panic. -/
def bindParams (searchParts : List Str) :
    Nat → List Str → GoMap Str → Option (GoMap Str)
  | _, [], params => some params
  | _, [] :: _, _ => none
  | index, (c :: name) :: parts, params =>
    let bound : Option (GoMap Str) :=
      if c = ':' then searchParts[index]?.map (fun v => params.set name v)
      else some params
    match bound with
    | none => none
    | some params1 =>
      if c = '*' ∧ (c :: name).length > 1 then
        if index ≤ searchParts.length then
          some (params1.set name (joinSlash (searchParts.drop index)))
        else none
      else bindParams searchParts (index + 1) parts params1

/-- The method `getRoute` (demo6.go:183).  The outer `none` is a panic, the
inner `none` is the result `(nil, nil)`. -/
def getRoute {H : Type} (r : router H) (method path : Str) :
    Option (Option (node × GoMap Str)) :=
  let searchParts := parsePattern path
  let params : GoMap Str := GoMap.empty
  match r.roots method with
  | none => some none
  | some root =>
    match search searchParts root with
    | some n =>
      (bindParams searchParts 0 (parsePattern n.pattern) params).map
        (fun params' => some (n, params'))
    | none => some none

/-- What `ServeHTTP` does with a request. -/
inductive Response (H : Type) where
  | handled (handler : H) (params : GoMap Str)
  | notFound

/-- The method `Engine.ServeHTTP` (demo6.go:232): the handler that is called
and the params it sees, or the 404 branch; `none` is a panic (of `getRoute`,
or of calling the nil handler of a missing key). -/
def ServeHTTP {H : Type} (r : router H) (method path : Str) :
    Option (Response H) :=
  match getRoute r method path with
  | none => none
  | some none => some .notFound
  | some (some (n, params)) =>
    match r.handlers (routeKey method n.pattern) with
    | some handler => some (.handled handler params)
    | none => none

/-- A registration: method, pattern, handler. -/
abbrev Reg (H : Type) := Str × Str × H

/-- A sequence of `addRoute` calls applied to `r`, in order. -/
def addRoutes {H : Type} (r : router H) : List (Reg H) → Option (router H)
  | [] => some r
  | (method, pattern, handler) :: regs =>
    match addRoute r method pattern handler with
    | none => none
    | some r' => addRoutes r' regs

/-- The non-empty `'/'`-delimited segments of a path, in order. -/
def nonEmptySegments (path : Str) : List Str :=
  (splitSlash path).filter (fun item => item ≠ [])

/-- A pattern segment for which the binding loop of `getRoute` writes a
params entry: it begins with `':'`, or it begins with `'*'` and is longer
than one character (`part[0] == '*' && len(part) > 1`). -/
def bindsParam : Str → Bool
  | c :: name => c == ':' || (c == '*' && !name.isEmpty)
  | [] => false

/-- A pattern segment that begins with `':'` or `'*'`. -/
def isPlaceholder : Str → Bool
  | c :: _ => c == ':' || c == '*'
  | [] => false

/-- The node `x` lies `k` levels below `n` (`k = 0`: `x` is `n` itself). -/
inductive DescAt : Nat → node → node → Prop
  | here (n : node) : DescAt 0 n n
  | step {k : Nat} {n c x : node} : c ∈ n.children → DescAt k c x → DescAt (k + 1) n x

/-- The registrations made by `main` (demo6.go:250), the three handlers named
1, 2 and 3. -/
def mainRoutes : List (Reg Nat) :=
  [("GET".toList, "/".toList, 1),
   ("GET".toList, "/hello/:name".toList, 2),
   ("GET".toList, "/assets/*filepath".toList, 3)]

/-- The router state in which GET `/hello/:name` alone is registered, with
handler 2. -/
def helloRouter : router Nat :=
  ⟨GoMap.empty.set "GET".toList
      (.mk [] [] [.mk [] "hello".toList
        [.mk "/hello/:name".toList ":name".toList [] true] false] false),
    GoMap.empty.set (routeKey "GET".toList "/hello/:name".toList) 2⟩

/-- The invariant that `addRoute` maintains: in every trie, a node with a
pattern sits at the depth that is the number of parts of its pattern, and
its handler key is present in the handler map. -/
def RouterInv {H : Type} (r : router H) : Prop :=
  ∀ method root, r.roots method = some root →
    ∀ k x, DescAt k root x → x.pattern ≠ [] →
      (parsePattern x.pattern).length = k ∧
        (r.handlers (routeKey method x.pattern)).isSome = true

/-- Two lists of pattern parts that can be registered side by side: they
agree up to the first position at which they differ, and there neither part
is a placeholder. -/
def compatible : List Str → List Str → Bool
  | x :: xs, y :: ys =>
    if x = y then compatible xs ys else !isPlaceholder x && !isPlaceholder y
  | _, _ => true

/-- The request segments `segs` instantiate the pattern parts: a literal part
by itself, a part that begins with `':'` by any one segment, a last part that
begins with `'*'` by one or more segments. -/
def matchesParts : List Str → List Str → Bool
  | [], [] => true
  | x :: parts, s :: segs =>
    if startsWithStar x then parts.isEmpty
    else if isPlaceholder x then matchesParts parts segs
    else x == s && matchesParts parts segs
  | _, _ => false

/-- The patterns registered under `method`, in registration order. -/
def patternsOf {H : Type} (method : Str) (regs : List (Reg H)) : List Str :=
  (regs.filter (fun reg => reg.1 = method)).map (fun reg => reg.2.1)

/-- The handler of the last registration of `(method, pattern)`, if any. -/
def lastRegistered {H : Type} : List (Reg H) → Str → Str → Option H
  | [], _, _ => none
  | (m, p, h) :: regs, method, pattern =>
    match lastRegistered regs method pattern with
    | some h' => some h'
    | none => if m = method ∧ p = pattern then some h else none

/-- The trie below `n`, reached from the root by the parts `path`, is the
prefix tree of the patterns `Q`: each child continues some pattern of `Q`,
children have distinct parts, every continuation found in `Q` has its child,
and a node at which patterns of `Q` end carries one of them. -/
inductive Good (Q : List Str) : List Str → node → Prop
  | mk (path : List Str) (n : node)
      (hchildren : ∀ c ∈ n.children, Good Q (path ++ [c.part]) c)
      (hwild : ∀ c ∈ n.children, c.isWild = isPlaceholder c.part)
      (hused : ∀ c ∈ n.children, ∃ q ∈ Q, ∃ t, parsePattern q = path ++ c.part :: t)
      (hnodup : (n.children.map node.part).Nodup)
      (hcomplete : ∀ q ∈ Q, ∀ x t, parsePattern q = path ++ x :: t →
        x ∈ n.children.map node.part)
      (hpattern : ∀ q ∈ Q, parsePattern q = path →
        ∃ q' ∈ Q, parsePattern q' = path ∧ n.pattern = q') :
      Good Q path n

/-- What `ServeHTTP` answers to a request once the registrations `regs` have
been made on a new router. -/
def serveAfter {H : Type} (regs : List (Reg H)) (method path : Str) :
    Option (Response H) :=
  (addRoutes (newRouter H) regs).bind (fun r => ServeHTTP r method path)

/-- A sequence of `insert` calls on `root`, one per pattern, each with
`parts = parsePattern(pattern)` and `height = 0`. -/
def insertAll (root : node) : List Str → Option node
  | [] => some root
  | pattern :: patterns =>
    match insert pattern (parsePattern pattern) root with
    | none => none
    | some root' => insertAll root' patterns

/-- The shape that `insert` maintains at every node of a trie: the wildcard
flag of a child says whether its segment is a placeholder, the children have
distinct segments, and at most one child is a wildcard. -/
inductive Shaped : node → Prop
  | mk (n : node)
      (hchildren : ∀ c ∈ n.children, Shaped c)
      (hwild : ∀ c ∈ n.children, c.isWild = isPlaceholder c.part)
      (hnodup : (n.children.map node.part).Nodup)
      (hone : n.children.countP (fun c => c.isWild) ≤ 1) :
      Shaped n

/-- The order of depth-first search on lists of child positions: `is` comes
no later than `js` when it is smaller at the first position where they
differ (lexicographic order). -/
def lexLe : List Nat → List Nat → Bool
  | [], _ => true
  | _ :: _, [] => false
  | i :: is, j :: js => decide (i < j) || (i == j && lexLe is js)

/-- A chain `n = n0, n1, ..., nk = x` for the segments `parts`, with the
positions of `n1, ..., nk` among the children of their parents: each
`n(i+1)` is a child of `n(i)` whose part equals `parts[i]` or that has
`isWild = true`, no `n(i)` with `i < k` has a part beginning with `'*'`,
either `k = len(parts)` or the part of `nk` begins with `'*'`, and the
pattern of `nk` is not empty. -/
inductive Chain : List Str → node → List Nat → node → Prop
  | stop (parts : List Str) (n : node) :
      (parts = [] ∨ startsWithStar n.part = true) → n.pattern ≠ [] →
      Chain parts n [] n
  | step (part : Str) (rest : List Str) (n : node) (i : Nat) (c : node)
      (is : List Nat) (x : node) :
      startsWithStar n.part = false → n.children[i]? = some c →
      childMatches part c = true → Chain rest c is x →
      Chain (part :: rest) n (i :: is) x

/-- The type `Engine` of demo5.go (line 56): the exact-key route map. -/
structure Demo5.Engine (H : Type) where
  router : GoMap H

/-- The function `New` of demo5.go (line 60). -/
def Demo5.New (H : Type) : Demo5.Engine H :=
  ⟨GoMap.empty⟩

/-- The method `Engine.addRoute` of demo5.go (line 64). -/
def Demo5.addRoute {H : Type} (engine : Demo5.Engine H) (method pattern : Str)
    (handler : H) : Demo5.Engine H :=
  let key := routeKey method pattern
  ⟨engine.router.set key handler⟩

/-- What `ServeHTTP` of demo5.go does with a request. -/
inductive Demo5.Response (H : Type) where
  | handled (handler : H)
  | notFound

/-- The method `Engine.ServeHTTP` of demo5.go (line 74): the handler stored
under `method + "-" + path` is called, or the answer is 404. -/
def Demo5.ServeHTTP {H : Type} (engine : Demo5.Engine H) (method path : Str) :
    Demo5.Response H :=
  let key := routeKey method path
  match engine.router key with
  | some handler => .handled handler
  | none => .notFound

/-- A sequence of `addRoute` calls of demo5.go applied to `engine`, in
order. -/
def Demo5.addRoutes {H : Type} (engine : Demo5.Engine H) :
    List (Reg H) → Demo5.Engine H
  | [] => engine
  | (method, pattern, handler) :: regs =>
    Demo5.addRoutes (Demo5.addRoute engine method pattern handler) regs

/-- A normalized static path: it begins with `'/'`, and it is the root `/` or
what follows the first `'/'` splits into segments none of which is empty
(so no doubled and no trailing slash) or begins with `':'` or `'*'`. -/
def isNormalizedStatic : Str → Bool
  | '/' :: rest =>
    rest.isEmpty || (splitSlash rest).all (fun s => !s.isEmpty && !isPlaceholder s)
  | _ => false

/-- The trie below `n`, reached from the root by the parts `path`, holds
literal nodes only, and a node with a pattern carries a pattern of `Q` whose
parts are `path`. -/
inductive StaticTrie (Q : List Str) : List Str → node → Prop
  | mk (path : List Str) (n : node)
      (hchildren : ∀ c ∈ n.children, StaticTrie Q (path ++ [c.part]) c)
      (hlit : ∀ c ∈ n.children, c.isWild = false ∧ startsWithStar c.part = false)
      (hpattern : n.pattern = [] ∨ (n.pattern ∈ Q ∧ parsePattern n.pattern = path)) :
      StaticTrie Q path n

/-! ## Theorems -/

@[simp]
theorem node.pattern_mk (a b : Str) (c : List node) (d : Bool) :
    (node.mk a b c d).pattern = a := rfl
@[simp]
theorem node.part_mk (a b : Str) (c : List node) (d : Bool) :
    (node.mk a b c d).part = b := rfl
@[simp]
theorem node.children_mk (a b : Str) (c : List node) (d : Bool) :
    (node.mk a b c d).children = c := rfl
@[simp]
theorem node.isWild_mk (a b : Str) (c : List node) (d : Bool) :
    (node.mk a b c d).isWild = d := rfl
@[simp]
theorem node.pattern_setChildren (n : node) (cs : List node) :
    (n.setChildren cs).pattern = n.pattern := rfl
@[simp]
theorem node.part_setChildren (n : node) (cs : List node) :
    (n.setChildren cs).part = n.part := rfl
@[simp]
theorem node.children_setChildren (n : node) (cs : List node) :
    (n.setChildren cs).children = cs := rfl
@[simp]
theorem node.isWild_setChildren (n : node) (cs : List node) :
    (n.setChildren cs).isWild = n.isWild := rfl
@[simp]
theorem node.pattern_setPattern (n : node) (p : Str) :
    (n.setPattern p).pattern = p := rfl
@[simp]
theorem node.part_setPattern (n : node) (p : Str) :
    (n.setPattern p).part = n.part := rfl
@[simp]
theorem node.children_setPattern (n : node) (p : Str) :
    (n.setPattern p).children = n.children := rfl
@[simp]
theorem node.isWild_setPattern (n : node) (p : Str) :
    (n.setPattern p).isWild = n.isWild := rfl
@[simp]
theorem node.setChildren_setChildren (n : node) (cs cs' : List node) :
    (n.setChildren cs).setChildren cs' = n.setChildren cs' := rfl
@[simp]
theorem node.setPattern_setPattern (n : node) (p p' : Str) :
    (n.setPattern p).setPattern p' = n.setPattern p' := rfl

/-- Splitting a string without `'/'` gives that string alone. -/
theorem splitSlash_noSlash (s : Str) (h : '/' ∉ s) : splitSlash s = [s] := by
  induction s with
  | nil => rfl
  | cons c cs ih =>
    simp only [List.mem_cons, not_or] at h
    have hc : c ≠ '/' := fun e => h.1 e.symm
    simp [splitSlash, hc, ih h.2]

/-- Splitting `a/b` where `a` has no `'/'` splits off `a`. -/
theorem splitSlash_append_slash (a b : Str) (h : '/' ∉ a) :
    splitSlash (a ++ '/' :: b) = a :: splitSlash b := by
  induction a with
  | nil => simp [splitSlash]
  | cons c cs ih =>
    simp only [List.mem_cons, not_or] at h
    have hc : c ≠ '/' := fun e => h.1 e.symm
    simp [splitSlash, hc, ih h.2]

theorem parseLoop_single (v : Str) (hv : v ≠ []) : parseLoop [v] = [v] := by
  cases v with
  | nil => exact absurd rfl hv
  | cons c cs =>
    simp only [parseLoop]
    split <;> rfl

theorem parsePattern_hello (v : Str) (hv : v ≠ []) (hs : '/' ∉ v) :
    parsePattern ("/hello/".toList ++ v) = ["hello".toList, v] := by
  have h1 : "/hello/".toList ++ v = [] ++ '/' :: ("hello".toList ++ '/' :: v) := by
    simp
  rw [parsePattern, h1, splitSlash_append_slash _ _ (by simp),
    splitSlash_append_slash _ _ (by decide), splitSlash_noSlash v hs]
  show parseLoop ["hello".toList, v] = _
  have : parseLoop ["hello".toList, v] = "hello".toList :: parseLoop [v] := by
    rfl
  rw [this, parseLoop_single v hv]

/-- What `addRoute` leaves behind: the method's root is the old root (or a
fresh one) after `insert`, other roots are untouched, and the handler map has
the new key set. -/
theorem addRoute_spec {H : Type} {r r' : router H} {method pattern : Str} {handler : H}
    (h : addRoute r method pattern handler = some r') :
    (∃ root', insert pattern (parsePattern pattern) ((r.roots method).getD node.zero) = some root'
        ∧ r'.roots method = some root') ∧
      (∀ m, m ≠ method → r'.roots m = r.roots m) ∧
      r'.handlers = r.handlers.set (routeKey method pattern) handler := by
  unfold addRoute at h
  cases hroot : r.roots method with
  | none =>
    simp only [hroot, GoMap.set, if_true, Option.map_eq_some'] at h
    obtain ⟨root', h1, h2⟩ := h
    subst h2
    refine ⟨⟨root', by simpa using h1, by simp [GoMap.set]⟩, ?_, rfl⟩
    intro m hm
    simp [GoMap.set, hm, hroot]
  | some root =>
    simp only [hroot, Option.map_eq_some'] at h
    obtain ⟨root', h1, h2⟩ := h
    subst h2
    refine ⟨⟨root', by simpa using h1, by simp [GoMap.set]⟩, ?_, rfl⟩
    intro m hm
    simp [GoMap.set, hm]

/-! ### Claim C2: named-parameter round trip -/

/-- C2. Named-parameter round trip: in the router whose only registration is
GET `/hello/:name`, for every non-empty `v` without `'/'`, `getRoute` on
GET `/hello/` + `v` returns the node whose pattern is `/hello/:name` together
with the params map that is exactly `{"name": v}`. -/
theorem C2_named_param_round_trip {H : Type} (handler : H) (v : Str)
    (hv : v ≠ []) (hs : '/' ∉ v) :
    ∃ r n, addRoute (newRouter H) "GET".toList "/hello/:name".toList handler = some r ∧
      getRoute r "GET".toList ("/hello/".toList ++ v)
        = some (some (n, GoMap.empty.set "name".toList v)) ∧
      n.pattern = "/hello/:name".toList := by
  obtain ⟨r, hr⟩ :
      ∃ r, addRoute (newRouter H) "GET".toList "/hello/:name".toList handler = some r :=
    ⟨_, rfl⟩
  obtain ⟨⟨root', h1, h2⟩, -, -⟩ := addRoute_spec hr
  have h3 : insert "/hello/:name".toList (parsePattern "/hello/:name".toList)
      (((newRouter H).roots "GET".toList).getD node.zero)
      = some (.mk [] [] [.mk [] "hello".toList
          [.mk "/hello/:name".toList ":name".toList [] true] false] false) := by
    rfl
  rw [h3] at h1
  cases h1
  refine ⟨r, .mk "/hello/:name".toList ":name".toList [] true, hr, ?_, rfl⟩
  have hpp : parsePattern "/hello/:name".toList = ["hello".toList, ":name".toList] := by
    decide
  have hsearch : search ["hello".toList, v]
      (.mk [] [] [.mk [] "hello".toList
        [.mk "/hello/:name".toList ":name".toList [] true] false] false)
      = some (.mk "/hello/:name".toList ":name".toList [] true) := by
    simp [search, matchChildren, childMatches, firstResult, startsWithStar, terminal]
  simp only [getRoute, parsePattern_hello v hv hs, h2, hsearch, node.pattern_mk, hpp]
  simp [bindParams]

theorem parseLoop_ne_nil (vs : List Str) : ∀ x ∈ parseLoop vs, x ≠ [] := by
  induction vs with
  | nil => simp [parseLoop]
  | cons item vs ih =>
    cases item with
    | nil => simpa [parseLoop] using ih
    | cons c item =>
      simp only [parseLoop]
      split
      · simp
      · intro x hx
        rcases List.mem_cons.1 hx with rfl | hx
        · simp
        · exact ih x hx

theorem parsePattern_ne_nil (pattern : Str) : ∀ x ∈ parsePattern pattern, x ≠ [] :=
  parseLoop_ne_nil _

theorem insert_total (pattern : Str) (parts : List Str) (hp : ∀ x ∈ parts, x ≠ []) :
    ∀ n, ∃ n', insert pattern parts n = some n' := by
  induction parts with
  | nil => intro n; exact ⟨_, rfl⟩
  | cons part rest ih =>
    intro n
    have hrest : ∀ x ∈ rest, x ≠ [] := fun x hx => hp x (List.mem_cons_of_mem _ hx)
    simp only [insert]
    cases hm : matchChild n part with
    | some child =>
      obtain ⟨c', hc'⟩ := ih hrest child
      simp [hc']
    | none =>
      cases part with
      | nil => exact absurd rfl (hp [] (List.mem_cons_self _ _))
      | cons c cs =>
        obtain ⟨c', hc'⟩ := ih hrest (.mk [] (c :: cs) [] (c == ':' || c == '*'))
        simp [hc']

theorem addRoute_total {H : Type} (r : router H) (method pattern : Str) (handler : H) :
    ∃ r', addRoute r method pattern handler = some r' := by
  unfold addRoute
  cases hroot : r.roots method with
  | none =>
    obtain ⟨n', hn'⟩ := insert_total pattern _ (parsePattern_ne_nil pattern) node.zero
    simp [GoMap.set, hn']
  | some root =>
    obtain ⟨n', hn'⟩ := insert_total pattern _ (parsePattern_ne_nil pattern) root
    simp [hroot, hn']

theorem addRoutes_total {H : Type} (regs : List (Reg H)) :
    ∀ r : router H, ∃ r', addRoutes r regs = some r' := by
  induction regs with
  | nil => intro r; exact ⟨r, rfl⟩
  | cons reg regs ih =>
    intro r
    obtain ⟨method, pattern, handler⟩ := reg
    obtain ⟨r1, h1⟩ := addRoute_total r method pattern handler
    obtain ⟨r2, h2⟩ := ih r1
    exact ⟨r2, by simp [addRoutes, h1, h2]⟩

theorem addRoutes_roots_other {H : Type} (m : Str) (regs : List (Reg H)) :
    ∀ r r' : router H, addRoutes r regs = some r' → (∀ reg ∈ regs, reg.1 ≠ m) →
      r'.roots m = r.roots m := by
  induction regs with
  | nil => intro r r' h _; simp [addRoutes] at h; rw [h]
  | cons reg regs ih =>
    intro r r' h hm
    obtain ⟨method, pattern, handler⟩ := reg
    simp only [addRoutes] at h
    cases h1 : addRoute r method pattern handler with
    | none => simp [h1] at h
    | some r1 =>
      simp only [h1] at h
      rw [ih r1 r' h (fun reg hreg => hm reg (List.mem_cons_of_mem _ hreg))]
      have := hm (method, pattern, handler) (List.mem_cons_self _ _)
      exact (addRoute_spec h1).2.1 m (fun e => this e.symm)

/-! ### Claim C4: unregistered method -/

/-- C4. Unregistered method yields not-found: after any sequence of `addRoute`
calls none of which uses method `m`, `getRoute m path` returns `(nil, nil)`
for every path. -/
theorem C4_unregistered_method_not_found {H : Type} (regs : List (Reg H)) (m path : Str)
    (hm : ∀ reg ∈ regs, reg.1 ≠ m) :
    ∃ r, addRoutes (newRouter H) regs = some r ∧ getRoute r m path = some none := by
  obtain ⟨r, hr⟩ := addRoutes_total regs (newRouter H)
  refine ⟨r, hr, ?_⟩
  have := addRoutes_roots_other m regs _ _ hr hm
  simp [getRoute, this, newRouter, GoMap.empty]

/-- C4 at POST `/hello/geektutu` with only GET `/hello/:name` registered. -/
theorem C4_witness :
    ∃ r, addRoutes (newRouter Nat) [("GET".toList, "/hello/:name".toList, 1)] = some r ∧
      getRoute r "POST".toList "/hello/geektutu".toList = some none :=
  C4_unregistered_method_not_found [("GET".toList, "/hello/:name".toList, 1)]
    "POST".toList "/hello/geektutu".toList (by decide)

/-- C2 at `v = "geektutu"`. -/
theorem C2_witness :
    ∃ r n, addRoute (newRouter Nat) "GET".toList "/hello/:name".toList 7 = some r ∧
      getRoute r "GET".toList ("/hello/".toList ++ "geektutu".toList)
        = some (some (n, GoMap.empty.set "name".toList "geektutu".toList)) ∧
      n.pattern = "/hello/:name".toList :=
  C2_named_param_round_trip 7 "geektutu".toList (by decide) (by decide)

/-- The method `insert` keeps the segment text and wildcard flag of the node it
is called on. -/
theorem insert_part_isWild {pattern : Str} {parts : List Str} {n n' : node}
    (h : insert pattern parts n = some n') : n'.part = n.part ∧ n'.isWild = n.isWild := by
  cases parts with
  | nil =>
    simp only [insert, Option.some.injEq] at h
    subst h
    exact ⟨rfl, rfl⟩
  | cons part rest =>
    simp only [insert] at h
    cases hm : matchChild n part with
    | some child =>
      simp only [hm, Option.map_eq_some'] at h
      obtain ⟨c', -, rfl⟩ := h
      exact ⟨rfl, rfl⟩
    | none =>
      cases part with
      | nil => simp [hm] at h
      | cons c cs =>
        simp only [hm, Option.map_eq_some'] at h
        obtain ⟨c', -, rfl⟩ := h
        exact ⟨rfl, rfl⟩

theorem childMatches_insert {pattern : Str} {parts : List Str} {n n' : node} (part : Str)
    (h : insert pattern parts n = some n') : childMatches part n' = childMatches part n := by
  obtain ⟨h1, h2⟩ := insert_part_isWild h
  simp [childMatches, h1, h2]

theorem find?_replaceMatched (part : Str) (child : node) (hc : childMatches part child = true) :
    ∀ cs : List node, (cs.find? (childMatches part)).isSome →
      (replaceMatched part child cs).find? (childMatches part) = some child := by
  intro cs
  induction cs with
  | nil => simp
  | cons c cs ih =>
    intro h
    simp only [replaceMatched]
    by_cases hcm : childMatches part c = true
    · simp [hcm, hc]
    · simp only [hcm, List.find?_cons] at h ⊢
      simpa [hcm] using ih h

theorem replaceMatched_replaceMatched (part : Str) (child child' : node)
    (hc : childMatches part child = true) :
    ∀ cs : List node, replaceMatched part child' (replaceMatched part child cs)
      = replaceMatched part child' cs := by
  intro cs
  induction cs with
  | nil => rfl
  | cons c cs ih =>
    simp only [replaceMatched]
    by_cases hcm : childMatches part c = true
    · simp [hcm, replaceMatched, hc]
    · simp [hcm, replaceMatched, ih]

theorem find?_append_new (part : Str) (child : node) (hc : childMatches part child = true) :
    ∀ cs : List node, cs.find? (childMatches part) = none →
      (cs ++ [child]).find? (childMatches part) = some child := by
  intro cs h
  simp [List.find?_append, h, hc]

theorem replaceMatched_append_new (part : Str) (child child' : node) 
    (hc : childMatches part child = true) :
    ∀ cs : List node, cs.find? (childMatches part) = none →
      replaceMatched part child' (cs ++ [child]) = cs ++ [child'] := by
  intro cs
  induction cs with
  | nil => intro _; simp [replaceMatched, hc]
  | cons c cs ih =>
    intro h
    simp only [List.find?_cons] at h
    by_cases hcm : childMatches part c = true
    · simp [hcm] at h
    · simp only [hcm] at h
      simp [replaceMatched, hcm, ih h]

/-- Inserting the same pattern a second time changes nothing. -/
theorem insert_idem (pattern : Str) (parts : List Str) :
    ∀ n n', insert pattern parts n = some n' → insert pattern parts n' = some n' := by
  induction parts with
  | nil =>
    intro n n' h
    simp only [insert, Option.some.injEq] at h
    subst h
    rfl
  | cons part rest ih =>
    intro n n' h
    simp only [insert] at h
    cases hm : matchChild n part with
    | some child =>
      simp only [hm, Option.map_eq_some'] at h
      obtain ⟨c', hc', rfl⟩ := h
      have hcm : childMatches part c' = true := by
        rw [childMatches_insert part hc']
        exact List.find?_some hm
      have hfind :
          matchChild (n.setChildren (replaceMatched part c' n.children)) part = some c' := by
        unfold matchChild at hm ⊢
        exact find?_replaceMatched part c' hcm _ (by simp [hm])
      simp only [insert, hfind, ih child c' hc', Option.map_some']
      simp [replaceMatched_replaceMatched part c' c' hcm]
    | none =>
      cases part with
      | nil => simp [hm] at h
      | cons c cs =>
        simp only [hm, Option.map_eq_some'] at h
        obtain ⟨c', hc', rfl⟩ := h
        have hcm : childMatches (c :: cs) c' = true := by
          rw [childMatches_insert (c :: cs) hc']
          simp [childMatches]
        have hfind : matchChild (n.setChildren (n.children ++ [c'])) (c :: cs) = some c' := by
          unfold matchChild at hm ⊢
          exact find?_append_new _ c' hcm _ hm
        simp only [insert, hfind, ih _ c' hc', Option.map_some']
        unfold matchChild at hm
        simp [replaceMatched_append_new _ c' c' hcm _ hm]

theorem GoMap.set_set {V : Type} (m : GoMap V) (k : Str) (v v' : V) :
    (m.set k v).set k v' = m.set k v' := by
  funext k'
  simp only [GoMap.set]
  split <;> rfl

theorem GoMap.set_same {V : Type} (m : GoMap V) (k : Str) (v : V) (h : m k = some v) :
    m.set k v = m := by
  funext k'
  simp only [GoMap.set]
  split
  · next e => rw [e, h]
  · rfl

/-- Closed form of `addRoute`. -/
theorem addRoute_eq {H : Type} (r : router H) (method pattern : Str) (handler : H) :
    addRoute r method pattern handler =
      (insert pattern (parsePattern pattern) ((r.roots method).getD node.zero)).map
        (fun root' => ⟨r.roots.set method root',
          r.handlers.set (routeKey method pattern) handler⟩) := by
  unfold addRoute
  cases hroot : r.roots method with
  | none => simp [GoMap.set_set, GoMap.set]
  | some root => simp [hroot]

/-! ### Claim C5: re-registration -/

/-- C5. Re-registration is idempotent for structure and last-wins for the
handler: from every router state `R`, `addRoute m p h1` followed by
`addRoute m p h2` ends in the very state that `addRoute m p h2` alone ends
in; the second call leaves the tries as the first call made them, binds
`m + "-" + p` to `h2`, and adds no handler entry. -/
theorem C5_reregistration_idempotent {H : Type} (R : router H) (m p : Str) (h1 h2 : H) :
    ∃ R1 R2, addRoute R m p h1 = some R1 ∧ addRoute R1 m p h2 = some R2 ∧
      addRoute R m p h2 = some R2 ∧
      R2.roots = R1.roots ∧
      R2.handlers (routeKey m p) = some h2 ∧
      (∀ k, (R2.handlers k).isSome = (R1.handlers k).isSome) := by
  obtain ⟨root1, hroot1⟩ :=
    insert_total p _ (parsePattern_ne_nil p) ((R.roots m).getD node.zero)
  have e1 : addRoute R m p h1
      = some ⟨R.roots.set m root1, R.handlers.set (routeKey m p) h1⟩ := by
    rw [addRoute_eq, hroot1]; rfl
  have e2 : addRoute R m p h2
      = some ⟨R.roots.set m root1, R.handlers.set (routeKey m p) h2⟩ := by
    rw [addRoute_eq, hroot1]; rfl
  have e12 : addRoute ⟨R.roots.set m root1, R.handlers.set (routeKey m p) h1⟩ m p h2
      = some ⟨R.roots.set m root1, R.handlers.set (routeKey m p) h2⟩ := by
    rw [addRoute_eq]
    have : ((R.roots.set m root1) m).getD node.zero = root1 := by simp [GoMap.set]
    simp only [this, insert_idem _ _ _ _ hroot1, Option.map_some', GoMap.set_set]
  refine ⟨_, _, e1, e12, e2, rfl, by simp [GoMap.set], ?_⟩
  intro k
  by_cases hk : k = routeKey m p <;> simp [GoMap.set, hk]

/-- The loop of `parsePattern` skips empty items. -/
theorem parseLoop_filter (vs : List Str) :
    parseLoop (vs.filter (fun item => item ≠ [])) = parseLoop vs := by
  induction vs with
  | nil => rfl
  | cons item vs ih =>
    cases item with
    | nil => simpa [parseLoop] using ih
    | cons c item =>
      simp only [ne_eq, reduceCtorEq, not_false_eq_true, decide_True,
        List.filter_cons_of_pos, parseLoop]
      split
      · rfl
      · rw [ih]

theorem parsePattern_eq_segments (path : Str) :
    parsePattern path = parseLoop (nonEmptySegments path) := by
  rw [nonEmptySegments, parseLoop_filter, parsePattern]

/-! ### Claim C6: path normalization -/

/-- C6. Path normalization: in every router state, two request paths with the
same sequence of non-empty `'/'`-delimited segments have the same
`parsePattern` and the same `getRoute` result (node and params). -/
theorem C6_path_normalization {H : Type} (r : router H) (method p q : Str)
    (h : nonEmptySegments p = nonEmptySegments q) :
    parsePattern p = parsePattern q ∧ getRoute r method p = getRoute r method q := by
  have hpq : parsePattern p = parsePattern q := by
    rw [parsePattern_eq_segments, parsePattern_eq_segments, h]
  exact ⟨hpq, by simp only [getRoute, hpq]⟩

/-- C6 at `/hello//geektutu/` versus `/hello/geektutu`. -/
theorem C6_witness :
    parsePattern "/hello//geektutu/".toList = parsePattern "/hello/geektutu".toList ∧
      getRoute helloRouter "GET".toList "/hello//geektutu/".toList
        = getRoute helloRouter "GET".toList "/hello/geektutu".toList :=
  C6_path_normalization helloRouter "GET".toList _ _ (by decide)

/-- The call `strings.Split` undoes `strings.Join` on slash-free segments. -/
theorem splitSlash_joinSlash : ∀ segs : List Str, segs ≠ [] → (∀ s ∈ segs, '/' ∉ s) →
    splitSlash (joinSlash segs) = segs
  | [], h, _ => absurd rfl h
  | [x], _, hs => by
    simpa [joinSlash] using splitSlash_noSlash x (hs x (List.mem_singleton_self _))
  | x :: y :: xs, _, hs => by
    rw [joinSlash, splitSlash_append_slash _ _ (hs x (List.mem_cons_self _ _)),
      splitSlash_joinSlash (y :: xs) (by simp) (fun s h => hs s (List.mem_cons_of_mem _ h))]

/-- The loop of `parsePattern` keeps a list of non-empty segments whole when
only its last segment may begin with `'*'`. -/
theorem parseLoop_id : ∀ segs : List Str, (∀ s ∈ segs, s ≠ []) →
    (∀ s ∈ segs.dropLast, startsWithStar s = false) → parseLoop segs = segs
  | [], _, _ => rfl
  | [] :: _, hne, _ => absurd rfl (hne [] (List.mem_cons_self _ _))
  | [c :: cs], _, _ => by simp only [parseLoop]; split <;> rfl
  | (c :: cs) :: y :: xs, hne, hstar => by
    have hc : c ≠ '*' := by
      have := hstar (c :: cs) (by simp [List.dropLast])
      simpa [startsWithStar] using this
    have hrec := parseLoop_id (y :: xs) (fun s h => hne s (List.mem_cons_of_mem _ h))
      (fun s h => hstar s (by simp only [List.dropLast]; exact List.mem_cons_of_mem _ h))
    simp only [parseLoop, hc, if_false]
    rw [hrec]

/-! ### Claim C3: wildcard absorption -/

/-- C3 (amended). Wildcard absorption: in the router whose only registration is
GET `/assets/*filepath`, for every non-empty sequence of non-empty slash-free
segments of which none but the last begins with `'*'`, `getRoute` on
GET `/assets/s1/.../sk` returns the node whose pattern is `/assets/*filepath`
with params exactly `{"filepath": "s1/.../sk"}`. -/
theorem C3_wildcard_absorption {H : Type} (handler : H) (segs : List Str) (hne : segs ≠ [])
    (hseg : ∀ s ∈ segs, s ≠ [] ∧ '/' ∉ s)
    (hstar : ∀ s ∈ segs.dropLast, startsWithStar s = false) :
    ∃ r n, addRoute (newRouter H) "GET".toList "/assets/*filepath".toList handler = some r ∧
      getRoute r "GET".toList ("/assets/".toList ++ joinSlash segs)
        = some (some (n, GoMap.empty.set "filepath".toList (joinSlash segs))) ∧
      n.pattern = "/assets/*filepath".toList := by
  obtain ⟨r, hr⟩ :
      ∃ r, addRoute (newRouter H) "GET".toList "/assets/*filepath".toList handler = some r :=
    ⟨_, rfl⟩
  obtain ⟨⟨root', h1, h2⟩, -, -⟩ := addRoute_spec hr
  have h3 : insert "/assets/*filepath".toList (parsePattern "/assets/*filepath".toList)
      (((newRouter H).roots "GET".toList).getD node.zero)
      = some (.mk [] [] [.mk [] "assets".toList
          [.mk "/assets/*filepath".toList "*filepath".toList [] true] false] false) := by
    rfl
  rw [h3] at h1
  cases h1
  have hparse : parsePattern ("/assets/".toList ++ joinSlash segs) = "assets".toList :: segs := by
    have e : "/assets/".toList ++ joinSlash segs
        = [] ++ '/' :: ("assets".toList ++ '/' :: joinSlash segs) := by simp
    rw [parsePattern, e, splitSlash_append_slash _ _ (by simp),
      splitSlash_append_slash _ _ (by decide),
      splitSlash_joinSlash segs hne (fun s h => (hseg s h).2)]
    show parseLoop ("assets".toList :: segs) = _
    have : parseLoop ("assets".toList :: segs) = "assets".toList :: parseLoop segs := rfl
    rw [this, parseLoop_id segs (fun s h => (hseg s h).1) hstar]
  refine ⟨r, .mk "/assets/*filepath".toList "*filepath".toList [] true, hr, ?_, rfl⟩
  have hpp : parsePattern "/assets/*filepath".toList = ["assets".toList, "*filepath".toList] := by
    decide
  cases segs with
  | nil => exact absurd rfl hne
  | cons s rest =>
    simp only [getRoute, hparse, h2]
    have hs : search ("assets".toList :: s :: rest)
        (.mk [] [] [.mk [] "assets".toList
          [.mk "/assets/*filepath".toList "*filepath".toList [] true] false] false)
        = some (.mk "/assets/*filepath".toList "*filepath".toList [] true) := by
      cases rest <;>
        simp [search, matchChildren, childMatches, firstResult, startsWithStar, terminal]
    rw [hs]
    simp only [node.pattern_mk, hpp]
    simp [bindParams]

/-- C3 at `/assets/css/a/b.css`. -/
theorem C3_witness :
    ∃ r n, addRoute (newRouter Nat) "GET".toList "/assets/*filepath".toList 7 = some r ∧
      getRoute r "GET".toList
          ("/assets/".toList ++ joinSlash ["css".toList, "a".toList, "b.css".toList])
        = some (some (n, GoMap.empty.set "filepath".toList
            (joinSlash ["css".toList, "a".toList, "b.css".toList]))) ∧
      n.pattern = "/assets/*filepath".toList :=
  C3_wildcard_absorption 7 ["css".toList, "a".toList, "b.css".toList]
    (by decide) (by decide) (by decide)

/-- C3 as stated fails at the segments `*a`, `b`: the request path
`/assets/*a/b` is cut at the segment that begins with `'*'`, so `filepath` is
bound to `*a` and not to `*a/b`. -/
theorem C3_counterexample :
    "/assets/".toList ++ joinSlash ["*a".toList, "b".toList] = "/assets/*a/b".toList ∧
    (∀ s ∈ ["*a".toList, "b".toList], s ≠ [] ∧ '/' ∉ s) ∧
    ∃ r n params,
      addRoute (newRouter Nat) "GET".toList "/assets/*filepath".toList 7 = some r ∧
      getRoute r "GET".toList "/assets/*a/b".toList = some (some (n, params)) ∧
      params "filepath".toList = some "*a".toList ∧
      params "filepath".toList ≠ some (joinSlash ["*a".toList, "b".toList]) := by
  refine ⟨by decide, by decide, ?_⟩
  obtain ⟨r, hr⟩ :
      ∃ r, addRoute (newRouter Nat) "GET".toList "/assets/*filepath".toList 7 = some r :=
    ⟨_, rfl⟩
  obtain ⟨⟨root', h1, h2⟩, -, -⟩ := addRoute_spec hr
  have h3 : insert "/assets/*filepath".toList (parsePattern "/assets/*filepath".toList)
      (((newRouter Nat).roots "GET".toList).getD node.zero)
      = some (.mk [] [] [.mk [] "assets".toList
          [.mk "/assets/*filepath".toList "*filepath".toList [] true] false] false) := by
    rfl
  rw [h3] at h1
  cases h1
  refine ⟨r, .mk "/assets/*filepath".toList "*filepath".toList [] true,
    GoMap.empty.set "filepath".toList "*a".toList, hr, ?_, by decide, by decide⟩
  have hparse : parsePattern "/assets/*a/b".toList = ["assets".toList, "*a".toList] := by
    decide
  have hpp : parsePattern "/assets/*filepath".toList = ["assets".toList, "*filepath".toList] := by
    decide
  simp only [getRoute, hparse, h2]
  have hs : search ["assets".toList, "*a".toList]
      (.mk [] [] [.mk [] "assets".toList
        [.mk "/assets/*filepath".toList "*filepath".toList [] true] false] false)
      = some (.mk "/assets/*filepath".toList "*filepath".toList [] true) := by
    simp [search, matchChildren, childMatches, firstResult, startsWithStar, terminal]
  rw [hs]
  simp only [node.pattern_mk, hpp]
  simp [bindParams, joinSlash]

/-! ### Claim C7: static and dynamic siblings -/

/-- C7 (amended). With GET `/hello/world` and GET `/hello/:name` both
registered, in either order, resolving GET `/hello/world` returns a node whose
pattern is `/hello/world`, with empty params, and `ServeHTTP` calls the
handler registered for `/hello/world`: registered first, the literal child is
found first; registered second, it reuses the wildcard child and overwrites
its pattern. -/
theorem C7_static_over_dynamic {H : Type} (hName hWorld : H) :
    (∃ r n, addRoutes (newRouter H)
          [("GET".toList, "/hello/world".toList, hWorld),
           ("GET".toList, "/hello/:name".toList, hName)] = some r ∧
        getRoute r "GET".toList "/hello/world".toList = some (some (n, GoMap.empty)) ∧
        n.pattern = "/hello/world".toList ∧
        ServeHTTP r "GET".toList "/hello/world".toList
          = some (.handled hWorld GoMap.empty)) ∧
    (∃ r n, addRoutes (newRouter H)
          [("GET".toList, "/hello/:name".toList, hName),
           ("GET".toList, "/hello/world".toList, hWorld)] = some r ∧
        getRoute r "GET".toList "/hello/world".toList = some (some (n, GoMap.empty)) ∧
        n.pattern = "/hello/world".toList ∧
        ServeHTTP r "GET".toList "/hello/world".toList
          = some (.handled hWorld GoMap.empty)) := by
  constructor
  · obtain ⟨r, hr⟩ := addRoutes_total
      [("GET".toList, "/hello/world".toList, hWorld),
       ("GET".toList, "/hello/:name".toList, hName)] (newRouter H)
    have e1 : (addRoutes (newRouter H)
          [("GET".toList, "/hello/world".toList, hWorld),
           ("GET".toList, "/hello/:name".toList, hName)]).bind
        (fun r => getRoute r "GET".toList "/hello/world".toList)
        = some (some (.mk "/hello/world".toList "world".toList [] false, GoMap.empty)) := rfl
    have e2 : (addRoutes (newRouter H)
          [("GET".toList, "/hello/world".toList, hWorld),
           ("GET".toList, "/hello/:name".toList, hName)]).bind
        (fun r => ServeHTTP r "GET".toList "/hello/world".toList)
        = some (.handled hWorld GoMap.empty) := rfl
    rw [hr] at e1 e2
    exact ⟨r, _, hr, e1, rfl, e2⟩
  · obtain ⟨r, hr⟩ := addRoutes_total
      [("GET".toList, "/hello/:name".toList, hName),
       ("GET".toList, "/hello/world".toList, hWorld)] (newRouter H)
    have e1 : (addRoutes (newRouter H)
          [("GET".toList, "/hello/:name".toList, hName),
           ("GET".toList, "/hello/world".toList, hWorld)]).bind
        (fun r => getRoute r "GET".toList "/hello/world".toList)
        = some (some (.mk "/hello/world".toList ":name".toList [] true, GoMap.empty)) := rfl
    have e2 : (addRoutes (newRouter H)
          [("GET".toList, "/hello/:name".toList, hName),
           ("GET".toList, "/hello/world".toList, hWorld)]).bind
        (fun r => ServeHTTP r "GET".toList "/hello/world".toList)
        = some (.handled hWorld GoMap.empty) := rfl
    rw [hr] at e1 e2
    exact ⟨r, _, hr, e1, rfl, e2⟩

/-- C7 as stated fails when `/hello/:name` (handler 1) is registered before
`/hello/world` (handler 2): resolving GET `/hello/world` calls handler 2 with
no `name` bound, not the first-registered handler 1 with `{"name": "world"}`. -/
theorem C7_counterexample :
    ∃ r params, addRoutes (newRouter Nat)
        [("GET".toList, "/hello/:name".toList, 1),
         ("GET".toList, "/hello/world".toList, 2)] = some r ∧
      ServeHTTP r "GET".toList "/hello/world".toList = some (.handled 2 params) ∧
      params "name".toList = none ∧
      ServeHTTP r "GET".toList "/hello/world".toList
        ≠ some (.handled 1 (GoMap.empty.set "name".toList "world".toList)) := by
  obtain ⟨r, hr⟩ := addRoutes_total
    [("GET".toList, "/hello/:name".toList, 1),
     ("GET".toList, "/hello/world".toList, 2)] (newRouter Nat)
  have e2 : (addRoutes (newRouter Nat)
        [("GET".toList, "/hello/:name".toList, 1),
         ("GET".toList, "/hello/world".toList, 2)]).bind
      (fun r => ServeHTTP r "GET".toList "/hello/world".toList)
      = some (.handled 2 GoMap.empty) := rfl
  rw [hr] at e2
  have e3 : ServeHTTP r "GET".toList "/hello/world".toList
      = some (.handled 2 GoMap.empty) := e2
  refine ⟨r, GoMap.empty, hr, e3, rfl, ?_⟩
  rw [e3]
  simp

/-- Only the last part that the loop of `parsePattern` appends can begin with `'*'`. -/
theorem parseLoop_starLast (vs : List Str) :
    ∀ s ∈ (parseLoop vs).dropLast, startsWithStar s = false := by
  induction vs with
  | nil => simp [parseLoop]
  | cons item vs ih =>
    cases item with
    | nil => simpa [parseLoop] using ih
    | cons c item =>
      simp only [parseLoop]
      split
      · simp
      · next hc =>
        intro s hs
        cases hrest : parseLoop vs with
        | nil => simp [hrest] at hs
        | cons y ys =>
          rw [hrest, List.dropLast_cons₂] at hs
          rcases List.mem_cons.1 hs with rfl | hs
          · simpa [startsWithStar] using hc
          · exact ih s (by rw [hrest]; exact hs)

theorem GoMap.isSome_set {V : Type} (m : GoMap V) (k k' : Str) (v : V) :
    ((m.set k v) k').isSome = true ↔ k' = k ∨ (m k').isSome = true := by
  by_cases h : k' = k <;> simp [GoMap.set, h]

/-- The keys present after the binding loop. -/
theorem bindParams_keys (searchParts : List Str) :
    ∀ (parts : List Str) (index : Nat) (params0 params : GoMap Str),
      bindParams searchParts index parts params0 = some params →
      (∀ s ∈ parts.dropLast, startsWithStar s = false) →
      ∀ key, (params key).isSome = true ↔
        ((params0 key).isSome = true ∨
          ∃ seg ∈ parts, bindsParam seg = true ∧ key = seg.drop 1) := by
  intro parts
  induction parts with
  | nil =>
    intro index params0 params h _ key
    simp only [bindParams, Option.some.injEq] at h
    subst h
    simp
  | cons part rest ih =>
    intro index params0 params h hstar key
    have hstar' : ∀ s ∈ rest.dropLast, startsWithStar s = false := by
      intro s hs
      cases rest with
      | nil => simp at hs
      | cons y ys => exact hstar s (by rw [List.dropLast_cons₂]; exact List.mem_cons_of_mem _ hs)
    cases part with
    | nil => simp [bindParams] at h
    | cons c name =>
      simp only [bindParams] at h
      by_cases hc : c = ':'
      · subst hc
        cases hv : searchParts[index]? with
        | none => simp [hv] at h
        | some v =>
          simp only [hv, Option.map_some', if_true] at h
          have hne : ¬ (':' = '*' ∧ (':' :: name).length > 1) := by
            rintro ⟨h1, -⟩
            exact absurd h1 (by decide)
          rw [if_neg hne] at h
          rw [ih _ _ _ h hstar' key, GoMap.isSome_set]
          simp only [List.mem_cons, exists_eq_or_imp, bindsParam, List.drop_succ_cons,
            List.drop_zero, beq_self_eq_true, Bool.true_or, true_and]
          tauto
      · simp only [hc, if_false] at h
        by_cases hs : c = '*' ∧ (c :: name).length > 1
        · rw [if_pos hs] at h
          obtain ⟨rfl, hlen⟩ := hs
          have hrest : rest = [] := by
            cases rest with
            | nil => rfl
            | cons y ys =>
              have := hstar ('*' :: name)
                (by rw [List.dropLast_cons₂]; exact List.mem_cons_self _ _)
              simp [startsWithStar] at this
          subst hrest
          have hname : name ≠ [] := by
            rintro rfl
            simp at hlen
          split at h
          · simp only [Option.some.injEq] at h
            subst h
            rw [GoMap.isSome_set]
            simp [bindsParam, hname]
            tauto
          · simp at h
        · rw [if_neg hs] at h
          rw [ih _ _ _ h hstar' key]
          have hb : bindsParam (c :: name) = false := by
            simp only [bindsParam, Bool.or_eq_false_iff, beq_eq_false_iff_ne, ne_eq, hc,
              not_false_eq_true, Bool.and_eq_false_imp, beq_iff_eq, Bool.not_eq_eq_eq_not,
              Bool.not_true, true_and]
            intro hstar2
            have : ¬ (name.length + 1 > 1) := fun hl => hs ⟨hstar2, by simpa using hl⟩
            cases name with
            | nil => rfl
            | cons a b => simp at this
          simp [hb]

/-! ### Claim C9: parameter map shape -/

/-- C9 (amended). Parameter map shape: in every router state, when `getRoute`
returns a node `n`, the keys of the returned params map are exactly the
texts after the leading character of those segments of `n.pattern` that begin
with `':'`, or begin with `'*'` and are longer than one character. -/
theorem C9_params_shape {H : Type} (r : router H) (method path : Str) (n : node)
    (params : GoMap Str)
    (hg : getRoute r method path = some (some (n, params))) :
    ∀ key, (params key).isSome = true ↔
      ∃ seg ∈ parsePattern n.pattern, bindsParam seg = true ∧ key = seg.drop 1 := by
  intro key
  unfold getRoute at hg
  cases hroot : r.roots method with
  | none => simp [hroot] at hg
  | some root =>
    simp only [hroot] at hg
    cases hs : search (parsePattern path) root with
    | none => simp [hs] at hg
    | some x =>
      simp only [hs, Option.map_eq_some', Option.some.injEq, Prod.mk.injEq] at hg
      obtain ⟨params', hb, rfl, rfl⟩ := hg
      rw [bindParams_keys _ _ _ _ _ hb (parseLoop_starLast _) key]
      simp [GoMap.empty]

/-- C9 at GET `/hello/geektutu` in the trie of `/hello/:name`. -/
theorem C9_witness :
    getRoute helloRouter "GET".toList "/hello/geektutu".toList
      = some (some (.mk "/hello/:name".toList ":name".toList [] true,
          GoMap.empty.set "name".toList "geektutu".toList)) ∧
    ∀ key, ((GoMap.empty.set "name".toList "geektutu".toList) key).isSome = true ↔
      ∃ seg ∈ parsePattern
          (node.mk "/hello/:name".toList ":name".toList [] true).pattern,
        bindsParam seg = true ∧ key = seg.drop 1 :=
  ⟨rfl, C9_params_shape helloRouter "GET".toList "/hello/geektutu".toList _ _ rfl⟩

/-- C9 as stated fails for the pattern `/a/*`: its segment `*` begins with
`'*'`, yet resolving GET `/a/b` returns a params map with no entry under the
segment text without its leading character (the empty key). -/
theorem C9_counterexample :
    ∃ r n params, addRoute (newRouter Nat) "GET".toList "/a/*".toList 7 = some r ∧
      getRoute r "GET".toList "/a/b".toList = some (some (n, params)) ∧
      "*".toList ∈ parsePattern n.pattern ∧ isPlaceholder "*".toList = true ∧
      params ("*".toList.drop 1) = none := by
  obtain ⟨r, hr⟩ := addRoute_total (newRouter Nat) "GET".toList "/a/*".toList 7
  have e : (addRoute (newRouter Nat) "GET".toList "/a/*".toList 7).bind
      (fun r => getRoute r "GET".toList "/a/b".toList)
      = some (some (.mk "/a/*".toList "*".toList [] true, GoMap.empty)) := rfl
  rw [hr] at e
  exact ⟨r, _, _, hr, e, by decide, by decide, rfl⟩

theorem firstResult_some {f : node → Option node} {cs : List node} {x : node}
    (h : firstResult f cs = some x) : ∃ c ∈ cs, f c = some x := by
  induction cs with
  | nil => simp [firstResult] at h
  | cons c cs ih =>
    simp only [firstResult] at h
    cases hc : f c with
    | some y =>
      simp only [hc, Option.some.injEq] at h
      subst h
      exact ⟨c, List.mem_cons_self _ _, hc⟩
    | none =>
      simp only [hc] at h
      obtain ⟨c', hc', hf⟩ := ih h
      exact ⟨c', List.mem_cons_of_mem _ hc', hf⟩

theorem terminal_some {n x : node} (h : terminal n = some x) : x = n ∧ x.pattern ≠ [] := by
  unfold terminal at h
  split at h
  · simp at h
  · next hp =>
    simp only [Option.some.injEq] at h
    subst h
    exact ⟨rfl, hp⟩

/-- Where `search` finds its result: a node with a pattern, at most
`len(parts)` levels down, and exactly that deep unless its own segment begins
with `'*'`. -/
theorem search_some (parts : List Str) :
    ∀ (n x : node), search parts n = some x →
      x.pattern ≠ [] ∧ ∃ k, DescAt k n x ∧ k ≤ parts.length ∧
        (k = parts.length ∨ startsWithStar x.part = true) := by
  induction parts with
  | nil =>
    intro n x h
    obtain ⟨rfl, hp⟩ := terminal_some (by simpa [search] using h)
    exact ⟨hp, 0, DescAt.here _, le_refl _, Or.inl rfl⟩
  | cons part rest ih =>
    intro n x h
    simp only [search] at h
    split at h
    · next hstar =>
      obtain ⟨rfl, hp⟩ := terminal_some h
      exact ⟨hp, 0, DescAt.here _, Nat.zero_le _, Or.inr hstar⟩
    · obtain ⟨c, hc, hf⟩ := firstResult_some h
      obtain ⟨hp, k, hd, hk, hor⟩ := ih c x hf
      have hmem : c ∈ n.children := (List.mem_filter.1 hc).1
      refine ⟨hp, k + 1, DescAt.step hmem hd, by simpa using hk, ?_⟩
      rcases hor with rfl | hs
      · exact Or.inl rfl
      · exact Or.inr hs

theorem mem_replaceMatched {part : Str} {child c : node} {cs : List node}
    (h : c ∈ replaceMatched part child cs) : c = child ∨ c ∈ cs := by
  induction cs with
  | nil => simp [replaceMatched] at h
  | cons d ds ih =>
    simp only [replaceMatched] at h
    split at h
    · rcases List.mem_cons.1 h with rfl | h
      · exact Or.inl rfl
      · exact Or.inr (List.mem_cons_of_mem _ h)
    · rcases List.mem_cons.1 h with rfl | h
      · exact Or.inr (List.mem_cons_self _ _)
      · rcases ih h with rfl | h
        · exact Or.inl rfl
        · exact Or.inr (List.mem_cons_of_mem _ h)

/-- Every node with a pattern in the trie after `insert` either carries the
inserted pattern, at the depth `len(parts)`, or was there before with the
same pattern, at the same depth. -/
theorem insert_descAt (pattern : Str) (parts : List Str) :
    ∀ (n m : node) (k : Nat) (x : node), insert pattern parts n = some m →
      DescAt k m x → x.pattern ≠ [] →
      (x.pattern = pattern ∧ k = parts.length) ∨
        ∃ x0, DescAt k n x0 ∧ x0.pattern = x.pattern := by
  induction parts with
  | nil =>
    intro n m k x h hd hx
    simp only [insert, Option.some.injEq] at h
    subst h
    cases hd with
    | here => exact Or.inl ⟨rfl, rfl⟩
    | step hc hd' => exact Or.inr ⟨x, DescAt.step hc hd', rfl⟩
  | cons part rest ih =>
    intro n m k x h hd hx
    simp only [insert] at h
    cases hm : matchChild n part with
    | some child =>
      simp only [hm, Option.map_eq_some'] at h
      obtain ⟨c', hc', rfl⟩ := h
      cases hd with
      | here => exact Or.inr ⟨n, DescAt.here _, rfl⟩
      | step hc hd' =>
        rcases mem_replaceMatched hc with rfl | hc
        · rcases ih _ _ _ _ hc' hd' hx with ⟨h1, h2⟩ | ⟨x0, h1, h2⟩
          · exact Or.inl ⟨h1, by simp [h2]⟩
          · exact Or.inr ⟨x0, DescAt.step (List.mem_of_find?_eq_some hm) h1, h2⟩
        · exact Or.inr ⟨x, DescAt.step hc hd', rfl⟩
    | none =>
      cases part with
      | nil => simp [hm] at h
      | cons c cs =>
        simp only [hm, Option.map_eq_some'] at h
        obtain ⟨c', hc', rfl⟩ := h
        cases hd with
        | here => exact Or.inr ⟨n, DescAt.here _, rfl⟩
        | step hc hd' =>
          rcases List.mem_append.1 hc with hc | hc
          · exact Or.inr ⟨x, DescAt.step hc hd', rfl⟩
          · rw [List.mem_singleton] at hc
            subst hc
            rcases ih _ _ _ _ hc' hd' hx with ⟨h1, h2⟩ | ⟨x0, h1, h2⟩
            · exact Or.inl ⟨h1, by simp [h2]⟩
            · exfalso
              cases h1 with
              | here => exact hx (by rw [← h2]; rfl)
              | step hc2 _ => simp at hc2

theorem RouterInv_newRouter (H : Type) : RouterInv (newRouter H) := by
  intro method root h
  simp [newRouter, GoMap.empty] at h

theorem RouterInv_addRoute {H : Type} {r r' : router H} {method pattern : Str} {handler : H}
    (h : addRoute r method pattern handler = some r') (hinv : RouterInv r) :
    RouterInv r' := by
  obtain ⟨⟨root', hins, hroot'⟩, hother, hhand⟩ := addRoute_spec h
  intro m root hm k x hd hx
  have hmono : ∀ key, (r.handlers key).isSome = true → (r'.handlers key).isSome = true := by
    intro key hk
    rw [hhand, GoMap.isSome_set]
    exact Or.inr hk
  by_cases hmm : m = method
  · subst hmm
    rw [hroot'] at hm
    cases hm
    rcases insert_descAt _ _ _ _ _ _ hins hd hx with ⟨h1, h2⟩ | ⟨x0, h1, h2⟩
    · refine ⟨by rw [h1, h2], ?_⟩
      rw [h1, hhand, GoMap.isSome_set]
      exact Or.inl rfl
    · cases hr : r.roots m with
      | none =>
        rw [hr] at h1
        exfalso
        cases h1 with
        | here => exact hx (by rw [← h2]; rfl)
        | step hc _ => simp [node.zero] at hc
      | some root0 =>
        rw [hr] at h1
        obtain ⟨e1, e2⟩ := hinv m root0 hr k x0 h1 (by rw [h2]; exact hx)
        rw [h2] at e1 e2
        exact ⟨e1, hmono _ e2⟩
  · rw [hother m hmm] at hm
    obtain ⟨e1, e2⟩ := hinv m root hm k x hd hx
    exact ⟨e1, hmono _ e2⟩

theorem RouterInv_addRoutes {H : Type} (regs : List (Reg H)) :
    ∀ r r' : router H, addRoutes r regs = some r' → RouterInv r → RouterInv r' := by
  induction regs with
  | nil =>
    intro r r' h hinv
    simp only [addRoutes, Option.some.injEq] at h
    subst h
    exact hinv
  | cons reg regs ih =>
    intro r r' h hinv
    obtain ⟨method, pattern, handler⟩ := reg
    simp only [addRoutes] at h
    cases h1 : addRoute r method pattern handler with
    | none => simp [h1] at h
    | some r1 =>
      simp only [h1] at h
      exact ih r1 r' h (RouterInv_addRoute h1 hinv)

/-- What a successful `getRoute` went through. -/
theorem getRoute_some {H : Type} {r : router H} {method path : Str} {n : node}
    {params : GoMap Str} (hg : getRoute r method path = some (some (n, params))) :
    ∃ root, r.roots method = some root ∧ search (parsePattern path) root = some n ∧
      bindParams (parsePattern path) 0 (parsePattern n.pattern) GoMap.empty = some params := by
  unfold getRoute at hg
  cases hroot : r.roots method with
  | none => simp [hroot] at hg
  | some root =>
    simp only [hroot] at hg
    cases hs : search (parsePattern path) root with
    | none => simp [hs] at hg
    | some x =>
      simp only [hs, Option.map_eq_some', Option.some.injEq, Prod.mk.injEq] at hg
      obtain ⟨params', hb, rfl, rfl⟩ := hg
      exact ⟨root, rfl, hs, hb⟩

/-! ### Claim C8: handler presence -/

/-- C8. Handler presence invariant: after any sequence of `addRoute` calls
from the empty router, whenever `getRoute method path` returns a node `n`, the
handler map contains the key `method + "-" + n.pattern`, and `ServeHTTP` calls
that handler with the returned params (it does not hit a missing handler). -/
theorem C8_handler_present {H : Type} (regs : List (Reg H)) (method path : Str) :
    ∃ r, addRoutes (newRouter H) regs = some r ∧
      ∀ n params, getRoute r method path = some (some (n, params)) →
        ∃ handler, r.handlers (routeKey method n.pattern) = some handler ∧
          ServeHTTP r method path = some (.handled handler params) := by
  obtain ⟨r, hr⟩ := addRoutes_total regs (newRouter H)
  refine ⟨r, hr, ?_⟩
  intro n params hg
  have hinv := RouterInv_addRoutes regs _ _ hr (RouterInv_newRouter H)
  obtain ⟨root, hroot, hs, -⟩ := getRoute_some hg
  obtain ⟨hp, k, hd, -, -⟩ := search_some _ _ _ hs
  obtain ⟨-, hh⟩ := hinv method root hroot k n hd hp
  obtain ⟨handler, hhandler⟩ := Option.isSome_iff_exists.1 hh
  exact ⟨handler, hhandler, by simp [ServeHTTP, hg, hhandler]⟩

theorem parseLoop_noStar (segs : List Str) (h : ∀ s ∈ segs, startsWithStar s = false) :
    parseLoop segs = segs.filter (fun item => item ≠ []) := by
  induction segs with
  | nil => rfl
  | cons s rest ih =>
    have hrest := ih (fun s hs => h s (List.mem_cons_of_mem _ hs))
    cases s with
    | nil => simpa [parseLoop] using hrest
    | cons c cs =>
      have hc : c ≠ '*' := by
        have := h (c :: cs) (List.mem_cons_self _ _)
        simpa [startsWithStar] using this
      simp [parseLoop, hc, hrest]

/-! ### Claim C10: one segment per named parameter -/

/-- C10 (amended). A named parameter consumes exactly one request segment:
after any sequence of `addRoute` calls, if `getRoute method path` returns a
node whose own segment does not begin with `'*'`, then `parsePattern path`
has as many segments as the node's pattern; and when no segment of `path`
begins with `'*'`, so has the list of all non-empty segments of `path`. -/
theorem C10_param_one_segment {H : Type} (regs : List (Reg H)) (method path : Str) :
    ∃ r, addRoutes (newRouter H) regs = some r ∧
      ∀ n params, getRoute r method path = some (some (n, params)) →
        startsWithStar n.part = false →
        (parsePattern path).length = (parsePattern n.pattern).length ∧
        ((∀ s ∈ nonEmptySegments path, startsWithStar s = false) →
          (nonEmptySegments path).length = (parsePattern n.pattern).length) := by
  obtain ⟨r, hr⟩ := addRoutes_total regs (newRouter H)
  refine ⟨r, hr, ?_⟩
  intro n params hg hstar
  have hinv := RouterInv_addRoutes regs _ _ hr (RouterInv_newRouter H)
  obtain ⟨root, hroot, hs, -⟩ := getRoute_some hg
  obtain ⟨hp, k, hd, -, hk⟩ := search_some _ _ _ hs
  obtain ⟨hlen, -⟩ := hinv method root hroot k n hd hp
  have hk' : k = (parsePattern path).length := by
    rcases hk with hk | hk
    · exact hk
    · rw [hstar] at hk; cases hk
  refine ⟨by rw [hlen, hk'], ?_⟩
  intro hno
  have e : parsePattern path = nonEmptySegments path := by
    rw [parsePattern_eq_segments, parseLoop_noStar _ hno]
    simp [nonEmptySegments]
  rw [← e, hlen, hk']

/-- C8 at GET `/hello/geektutu` with the routes of `main`. -/
theorem C8_witness :
    ∃ r n params handler, addRoutes (newRouter Nat) mainRoutes = some r ∧
      getRoute r "GET".toList "/hello/geektutu".toList = some (some (n, params)) ∧
      r.handlers (routeKey "GET".toList n.pattern) = some handler ∧
      ServeHTTP r "GET".toList "/hello/geektutu".toList
        = some (.handled handler params) := by
  obtain ⟨r, hr, h⟩ :=
    C8_handler_present mainRoutes "GET".toList "/hello/geektutu".toList
  have e : (addRoutes (newRouter Nat) mainRoutes).bind
      (fun r => getRoute r "GET".toList "/hello/geektutu".toList)
      = some (some (.mk "/hello/:name".toList ":name".toList [] true,
          GoMap.empty.set "name".toList "geektutu".toList)) := rfl
  rw [hr] at e
  obtain ⟨handler, h1, h2⟩ := h _ _ e
  exact ⟨r, _, _, handler, hr, e, h1, h2⟩

/-- C10 at GET `/hello/geektutu` with the routes of `main`. -/
theorem C10_witness :
    ∃ r n params, addRoutes (newRouter Nat) mainRoutes = some r ∧
      getRoute r "GET".toList "/hello/geektutu".toList = some (some (n, params)) ∧
      startsWithStar n.part = false ∧
      (parsePattern "/hello/geektutu".toList).length = (parsePattern n.pattern).length ∧
      (nonEmptySegments "/hello/geektutu".toList).length
        = (parsePattern n.pattern).length := by
  obtain ⟨r, hr, h⟩ :=
    C10_param_one_segment mainRoutes "GET".toList "/hello/geektutu".toList
  have e : (addRoutes (newRouter Nat) mainRoutes).bind
      (fun r => getRoute r "GET".toList "/hello/geektutu".toList)
      = some (some (.mk "/hello/:name".toList ":name".toList [] true,
          GoMap.empty.set "name".toList "geektutu".toList)) := rfl
  rw [hr] at e
  obtain ⟨h1, h2⟩ := h _ _ e rfl
  exact ⟨r, _, _, hr, e, rfl, h1, h2 (by decide)⟩

/-- C10 as stated fails twice.  With GET `/a/:x` alone, the path `/a/*b/c`
(three non-empty segments) is cut at `*b` and matches the two-segment pattern
`/a/:x`.  With GET `/a/*f` and then GET `/a/b`, the second registration
reuses the `*f` node, so the path `/a/x/y/z` (four segments, none beginning
with `'*'`) matches the two-segment pattern `/a/b`. -/
theorem C10_counterexample :
    (∃ r n params, addRoutes (newRouter Nat) [("GET".toList, "/a/:x".toList, 1)] = some r ∧
      getRoute r "GET".toList "/a/*b/c".toList = some (some (n, params)) ∧
      (∀ seg ∈ parsePattern n.pattern, startsWithStar seg = false) ∧
      (nonEmptySegments "/a/*b/c".toList).length = 3 ∧
      (parsePattern n.pattern).length = 2) ∧
    (∃ r n params, addRoutes (newRouter Nat)
        [("GET".toList, "/a/*f".toList, 1), ("GET".toList, "/a/b".toList, 2)] = some r ∧
      getRoute r "GET".toList "/a/x/y/z".toList = some (some (n, params)) ∧
      (∀ seg ∈ parsePattern n.pattern, startsWithStar seg = false) ∧
      (∀ s ∈ nonEmptySegments "/a/x/y/z".toList, startsWithStar s = false) ∧
      (nonEmptySegments "/a/x/y/z".toList).length = 4 ∧
      (parsePattern n.pattern).length = 2) := by
  constructor
  · obtain ⟨r, hr⟩ := addRoutes_total [("GET".toList, "/a/:x".toList, 1)] (newRouter Nat)
    have e : (addRoutes (newRouter Nat) [("GET".toList, "/a/:x".toList, 1)]).bind
        (fun r => getRoute r "GET".toList "/a/*b/c".toList)
        = some (some (.mk "/a/:x".toList ":x".toList [] true,
            GoMap.empty.set "x".toList "*b".toList)) := rfl
    rw [hr] at e
    exact ⟨r, _, _, hr, e, by decide, by decide, by decide⟩
  · obtain ⟨r, hr⟩ := addRoutes_total
      [("GET".toList, "/a/*f".toList, 1), ("GET".toList, "/a/b".toList, 2)] (newRouter Nat)
    have e : (addRoutes (newRouter Nat)
          [("GET".toList, "/a/*f".toList, 1), ("GET".toList, "/a/b".toList, 2)]).bind
        (fun r => getRoute r "GET".toList "/a/x/y/z".toList)
        = some (some (.mk "/a/b".toList "*f".toList [] true, GoMap.empty)) := rfl
    rw [hr] at e
    exact ⟨r, _, _, hr, e, by decide, by decide, by decide, by decide⟩

theorem compatible_at_split (pre : List Str) (y x : Str) (s t : List Str)
    (h : compatible (pre ++ y :: s) (pre ++ x :: t) = true) :
    y = x ∨ (isPlaceholder y = false ∧ isPlaceholder x = false) := by
  induction pre with
  | nil =>
    simp only [List.nil_append, compatible] at h
    by_cases hyx : y = x
    · exact Or.inl hyx
    · simp only [hyx, if_false, Bool.and_eq_true, Bool.not_eq_true'] at h
      exact Or.inr h
  | cons a pre ih =>
    simp only [List.cons_append, compatible, if_true] at h
    exact ih h

theorem good_mono {Q : List Str} (q0 : Str) {path : List Str} {n : node}
    (h : Good Q path n) (hq0 : ∀ t, parsePattern q0 ≠ path ++ t) :
    Good (Q ++ [q0]) path n := by
  induction h with
  | mk path n hchildren hwild hused hnodup hcomplete hpattern ih =>
    refine Good.mk path n ?_ hwild ?_ hnodup ?_ ?_
    · intro c hc
      exact ih c hc (fun t => by rw [List.append_assoc]; exact hq0 _)
    · intro c hc
      obtain ⟨q, hq, t, ht⟩ := hused c hc
      exact ⟨q, List.mem_append_left _ hq, t, ht⟩
    · intro q hq x t hqt
      rcases List.mem_append.1 hq with hq | hq
      · exact hcomplete q hq x t hqt
      · rw [List.mem_singleton] at hq
        subst hq
        exact absurd hqt (hq0 _)
    · intro q hq hqp
      rcases List.mem_append.1 hq with hq | hq
      · obtain ⟨q', hq', h1, h2⟩ := hpattern q hq hqp
        exact ⟨q', List.mem_append_left _ hq', h1, h2⟩
      · rw [List.mem_singleton] at hq
        subst hq
        exact absurd (by simpa using hqp) (hq0 [])

theorem replaceMatched_split (part : Str) (child c : node) (l1 l2 : List node)
    (h1 : ∀ a ∈ l1, childMatches part a = false) (hc : childMatches part c = true) :
    replaceMatched part child (l1 ++ c :: l2) = l1 ++ child :: l2 := by
  induction l1 with
  | nil => simp [replaceMatched, hc]
  | cons a l1 ih =>
    have ha : childMatches part a = false := h1 a (List.mem_cons_self _ _)
    have := ih (fun b hb => h1 b (List.mem_cons_of_mem _ hb))
    simp [replaceMatched, ha, this]

theorem append_cons_inj {pre : List Str} {x y : Str} {s t : List Str}
    (h : pre ++ x :: s = pre ++ y :: t) : x = y ∧ s = t := by
  have := List.append_cancel_left h
  simpa using this

theorem ne_append_cons (pre : List Str) (x : Str) (t : List Str) : pre ≠ pre ++ x :: t := by
  intro h
  have := congrArg List.length h
  simp at this

/-- Inserting a pattern compatible with those already in the trie keeps the
trie the prefix tree of the registered patterns. -/
theorem good_insert {Q : List Str} (q0 : Str)
    (hcompat : ∀ q ∈ Q, compatible (parsePattern q) (parsePattern q0) = true) :
    ∀ (rest path : List Str) (n n' : node), Good Q path n →
      parsePattern q0 = path ++ rest → Gee.insert q0 rest n = some n' →
      Good (Q ++ [q0]) path n' := by
  intro rest
  induction rest with
  | nil =>
    intro path n n' hg hq0 hins
    simp only [Gee.insert, Option.some.injEq] at hins
    subst hins
    rw [List.append_nil] at hq0
    cases hg with
    | mk _ _ hchildren hwild hused hnodup hcomplete hpattern =>
      refine Good.mk path _ ?_ hwild ?_ hnodup ?_ ?_
      · intro c hc
        refine good_mono q0 (hchildren c hc) ?_
        intro t ht
        rw [hq0, List.append_assoc] at ht
        exact ne_append_cons _ _ _ ht
      · intro c hc
        obtain ⟨q, hq, t, ht⟩ := hused c hc
        exact ⟨q, List.mem_append_left _ hq, t, ht⟩
      · intro q hq x t hqt
        rcases List.mem_append.1 hq with hq | hq
        · exact hcomplete q hq x t hqt
        · rw [List.mem_singleton] at hq
          subst hq
          rw [hq0] at hqt
          exact absurd hqt (ne_append_cons _ _ _)
      · intro q _ _
        exact ⟨q0, List.mem_append_right _ (List.mem_singleton_self _), hq0, rfl⟩
  | cons x rest ih =>
    intro path n n' hg hq0 hins
    have hq0' : parsePattern q0 = (path ++ [x]) ++ rest := by
      rw [hq0, List.append_assoc]; rfl
    have hmono : ∀ d : node, d.part ≠ x → Good Q (path ++ [d.part]) d →
        Good (Q ++ [q0]) (path ++ [d.part]) d := by
      intro d hd hgd
      refine good_mono q0 hgd ?_
      intro t ht
      rw [hq0, List.append_assoc] at ht
      exact hd (append_cons_inj ht).1.symm
    have hq0mem : q0 ∈ Q ++ [q0] := List.mem_append_right _ (List.mem_singleton_self _)
    simp only [Gee.insert] at hins
    cases hg with
    | mk _ _ hchildren hwild hused hnodup hcomplete hpattern =>
      have hpat' : ∀ q ∈ Q ++ [q0], parsePattern q = path →
          ∃ q' ∈ Q ++ [q0], parsePattern q' = path ∧ n.pattern = q' := by
        intro q hq hqp
        rcases List.mem_append.1 hq with hq | hq
        · obtain ⟨q', hq', h1, h2⟩ := hpattern q hq hqp
          exact ⟨q', List.mem_append_left _ hq', h1, h2⟩
        · rw [List.mem_singleton] at hq
          subst hq
          rw [hq0] at hqp
          exact absurd hqp.symm (ne_append_cons _ _ _)
      cases hm : matchChild n x with
      | some c =>
        simp only [hm, Option.map_eq_some'] at hins
        obtain ⟨c', hc', rfl⟩ := hins
        obtain ⟨hcm, l1, l2, hsplit, hl1⟩ := List.find?_eq_some.1 hm
        have hcmem : c ∈ n.children := by rw [hsplit]; simp
        have hcx : c.part = x := by
          obtain ⟨q, hq, t, ht⟩ := hused c hcmem
          have hc2 := hcompat q hq
          rw [ht, hq0] at hc2
          rcases compatible_at_split _ _ _ _ _ hc2 with h | ⟨h1, -⟩
          · exact h
          · have hw := hwild c hcmem
            rw [h1] at hw
            simpa [childMatches, hw] using hcm
        obtain ⟨hp', hw'⟩ := insert_part_isWild hc'
        have hrep : replaceMatched x c' n.children = l1 ++ c' :: l2 := by
          rw [hsplit]
          exact replaceMatched_split x c' c l1 l2 (fun a ha => by simpa using hl1 a ha) hcm
        have hparts : (l1 ++ c' :: l2).map node.part = n.children.map node.part := by
          rw [hsplit]; simp [hp']
        have hother : ∀ d ∈ l1 ++ c' :: l2, d = c' ∨ (d ∈ n.children ∧ d.part ≠ x) := by
          intro d hd
          rw [hsplit, List.map_append, List.map_cons, List.nodup_middle, List.nodup_cons,
            ← List.map_append] at hnodup
          rcases List.mem_append.1 hd with hd | hd
          · refine Or.inr ⟨by rw [hsplit]; simp [hd], ?_⟩
            intro hdx
            exact hnodup.1 (List.mem_map.2 ⟨d, List.mem_append_left _ hd, by rw [hdx, hcx]⟩)
          · rcases List.mem_cons.1 hd with rfl | hd
            · exact Or.inl rfl
            · refine Or.inr ⟨by rw [hsplit]; simp [hd], ?_⟩
              intro hdx
              exact hnodup.1 (List.mem_map.2 ⟨d, List.mem_append_right _ hd, by rw [hdx, hcx]⟩)
        have hgc' : Good (Q ++ [q0]) (path ++ [x]) c' :=
          ih (path ++ [x]) c c' (by rw [← hcx]; exact hchildren c hcmem) hq0' hc'
        refine Good.mk path _ ?_ ?_ ?_ ?_ ?_ hpat'
        · intro d hd
          rw [node.children_setChildren, hrep] at hd
          rcases hother d hd with rfl | ⟨hd1, hd2⟩
          · rw [hp', hcx]; exact hgc'
          · exact hmono d hd2 (hchildren d hd1)
        · intro d hd
          rw [node.children_setChildren, hrep] at hd
          rcases hother d hd with rfl | ⟨hd1, -⟩
          · rw [hw', hp']; exact hwild c hcmem
          · exact hwild d hd1
        · intro d hd
          rw [node.children_setChildren, hrep] at hd
          rcases hother d hd with rfl | ⟨hd1, -⟩
          · exact ⟨q0, hq0mem, rest, by rw [hp', hcx]; exact hq0⟩
          · obtain ⟨q, hq, t, ht⟩ := hused d hd1
            exact ⟨q, List.mem_append_left _ hq, t, ht⟩
        · rw [node.children_setChildren, hrep, hparts]; exact hnodup
        · intro q hq y t hqt
          rw [node.children_setChildren, hrep, hparts]
          rcases List.mem_append.1 hq with hq | hq
          · exact hcomplete q hq y t hqt
          · rw [List.mem_singleton] at hq
            subst hq
            rw [hq0] at hqt
            rw [← (append_cons_inj hqt).1, ← hcx]
            exact List.mem_map.2 ⟨c, hcmem, rfl⟩
      | none =>
        cases x with
        | nil => simp [hm] at hins
        | cons ch cs =>
          simp only [hm, Option.map_eq_some'] at hins
          obtain ⟨c', hc', rfl⟩ := hins
          obtain ⟨hp', hw'⟩ := insert_part_isWild hc'
          simp only [node.part_mk, node.isWild_mk] at hp' hw'
          have hnone : ∀ d ∈ n.children, d.part ≠ ch :: cs := by
            intro d hd hdx
            have := List.find?_eq_none.1 hm d hd
            simp [childMatches, hdx] at this
          have hnotin : (ch :: cs) ∉ n.children.map node.part := by
            intro hin
            obtain ⟨d, hd, hdx⟩ := List.mem_map.1 hin
            exact hnone d hd hdx
          have hg0 : Good Q (path ++ [ch :: cs])
              (node.mk [] (ch :: cs) [] (ch == ':' || ch == '*')) := by
            refine Good.mk _ _ (by simp) (by simp) (by simp) (by simp) ?_ ?_
            · intro q hq y t hqt
              rw [List.append_assoc] at hqt
              exact absurd (hcomplete q hq _ _ hqt) hnotin
            · intro q hq hqt
              exact absurd (hcomplete q hq _ _ hqt) hnotin
          have hgc' : Good (Q ++ [q0]) (path ++ [ch :: cs]) c' := ih _ _ c' hg0 hq0' hc'
          refine Good.mk path _ ?_ ?_ ?_ ?_ ?_ hpat'
          · intro d hd
            rw [node.children_setChildren] at hd
            rcases List.mem_append.1 hd with hd | hd
            · exact hmono d (hnone d hd) (hchildren d hd)
            · rw [List.mem_singleton] at hd
              subst hd
              rw [hp']; exact hgc'
          · intro d hd
            rw [node.children_setChildren] at hd
            rcases List.mem_append.1 hd with hd | hd
            · exact hwild d hd
            · rw [List.mem_singleton] at hd
              subst hd
              rw [hp', hw']; rfl
          · intro d hd
            rw [node.children_setChildren] at hd
            rcases List.mem_append.1 hd with hd | hd
            · obtain ⟨q, hq, t, ht⟩ := hused d hd
              exact ⟨q, List.mem_append_left _ hq, t, ht⟩
            · rw [List.mem_singleton] at hd
              subst hd
              exact ⟨q0, hq0mem, rest, by rw [hp']; exact hq0⟩
          · rw [node.children_setChildren, List.map_append, List.map_singleton, hp']
            rw [List.nodup_append]
            refine ⟨hnodup, List.nodup_singleton _, ?_⟩
            intro y hy hy'
            rw [List.mem_singleton] at hy'
            subst hy'
            exact hnotin hy
          · intro q hq y t hqt
            rw [node.children_setChildren, List.map_append, List.map_singleton, hp']
            rcases List.mem_append.1 hq with hq | hq
            · exact List.mem_append_left _ (hcomplete q hq y t hqt)
            · rw [List.mem_singleton] at hq
              subst hq
              rw [hq0] at hqt
              rw [← (append_cons_inj hqt).1]
              exact List.mem_append_right _ (List.mem_singleton_self _)

theorem firstResult_cons_some {f : node → Option node} {c x : node} (cs : List node)
    (h : f c = some x) : firstResult f (c :: cs) = some x := by
  simp [firstResult, h]

theorem terminal_of_pattern {n : node} (h : n.pattern ≠ []) : terminal n = some n := by
  simp [terminal, h]

theorem startsWithStar_isPlaceholder {x : Str} (h : startsWithStar x = true) :
    isPlaceholder x = true := by
  cases x with
  | nil => simp [startsWithStar] at h
  | cons c cs =>
    simp only [startsWithStar, beq_iff_eq] at h
    simp [isPlaceholder, h]

/-- In a prefix tree of pairwise compatible patterns, `search` on an instance
of a registered pattern ends at the node that carries that pattern. -/
theorem good_search {Q : List Str} {pattern : Str}
    (hcompat : ∀ q ∈ Q, compatible (parsePattern q) (parsePattern pattern) = true)
    (hnorm : ∀ q ∈ Q, parsePattern q = parsePattern pattern → q = pattern)
    (hmem : pattern ∈ Q) (hne : pattern ≠ []) :
    ∀ (rest segs path : List Str) (n : node), Good Q path n →
      parsePattern pattern = path ++ rest → matchesParts rest segs = true →
      (rest ≠ [] → startsWithStar n.part = false) →
      ∃ x, Gee.search segs n = some x ∧ x.pattern = pattern := by
  intro rest
  induction rest with
  | nil =>
    intro segs path n hg hp hmatch _
    cases segs with
    | cons s segs => simp [matchesParts] at hmatch
    | nil =>
      rw [List.append_nil] at hp
      cases hg with
      | mk _ _ hchildren hwild hused hnodup hcomplete hpattern =>
        obtain ⟨q', hq', h1, h2⟩ := hpattern pattern hmem hp
        have : q' = pattern := hnorm q' hq' (by rw [h1, hp])
        subst this
        exact ⟨n, by rw [Gee.search, terminal_of_pattern (by rw [h2]; exact hne)], h2⟩
  | cons x rest ih =>
    intro segs path n hg hp hmatch hstar
    cases segs with
    | nil => simp [matchesParts] at hmatch
    | cons s segs =>
      have hp' : parsePattern pattern = (path ++ [x]) ++ rest := by
        rw [hp, List.append_assoc]; rfl
      cases hg with
      | mk _ _ hchildren hwild hused hnodup hcomplete hpattern =>
        -- every candidate child has the part `x`
        have hcand : ∀ c ∈ matchChildren n s,
            (isPlaceholder x = true ∨ x = s) → c ∈ n.children ∧ c.part = x := by
          intro c hc hx
          obtain ⟨hcmem, hcm⟩ := List.mem_filter.1 hc
          refine ⟨hcmem, ?_⟩
          obtain ⟨q, hq, t, ht⟩ := hused c hcmem
          have hc2 := hcompat q hq
          rw [ht, hp] at hc2
          rcases compatible_at_split _ _ _ _ _ hc2 with h | ⟨h1, h2⟩
          · exact h
          · rcases hx with hx | hx
            · rw [h2] at hx; cases hx
            · have hw := hwild c hcmem
              rw [h1] at hw
              rw [hx]
              simpa [childMatches, hw] using hcm
        -- and there is one
        have hex : (isPlaceholder x = true ∨ x = s) →
            ∃ c cs, matchChildren n s = c :: cs := by
          intro hx
          obtain ⟨c, hcmem, hcx⟩ := List.mem_map.1 (hcomplete pattern hmem x rest hp)
          have hcm : childMatches s c = true := by
            rcases hx with hx | hx
            · have hw := hwild c hcmem
              rw [hcx, hx] at hw
              simp [childMatches, hw]
            · simp [childMatches, hcx, hx]
          have hin : c ∈ matchChildren n s := List.mem_filter.2 ⟨hcmem, hcm⟩
          cases hl : matchChildren n s with
          | nil => rw [hl] at hin; simp at hin
          | cons c0 cs => exact ⟨c0, cs, rfl⟩
        have hns : startsWithStar n.part = false := hstar (by simp)
        simp only [Gee.search, hns, Bool.false_eq_true, if_false]
        simp only [matchesParts] at hmatch
        by_cases hsx : startsWithStar x = true
        · -- a catch-all part: the child absorbs what is left
          simp only [hsx, if_true, List.isEmpty_iff] at hmatch
          subst hmatch
          have hx := Or.inl (b := x = s) (startsWithStar_isPlaceholder hsx)
          obtain ⟨c, cs, hl⟩ := hex hx
          obtain ⟨hcmem, hcx⟩ := hcand c (by rw [hl]; exact List.mem_cons_self _ _) hx
          have hgc := hchildren c hcmem
          rw [hcx] at hgc
          cases hgc with
          | mk _ _ _ _ _ _ _ hpattern' =>
            obtain ⟨q', hq', h1, h2⟩ := hpattern' pattern hmem (by rw [hp])
            have : q' = pattern := hnorm q' hq' (by rw [h1, hp])
            subst this
            have hterm : Gee.search segs c = some c := by
              cases segs with
              | nil => rw [Gee.search, terminal_of_pattern (by rw [h2]; exact hne)]
              | cons s' segs' =>
                rw [Gee.search, hcx, hsx, if_pos rfl,
                  terminal_of_pattern (by rw [h2]; exact hne)]
            rw [hl]
            exact ⟨c, firstResult_cons_some _ hterm, h2⟩
        · simp only [hsx, Bool.false_eq_true, if_false] at hmatch
          have hx : isPlaceholder x = true ∨ x = s := by
            by_cases hph : isPlaceholder x = true
            · exact Or.inl hph
            · simp only [hph, Bool.false_eq_true, if_false, Bool.and_eq_true,
                beq_iff_eq] at hmatch
              exact Or.inr hmatch.1
          have hmatch' : matchesParts rest segs = true := by
            by_cases hph : isPlaceholder x = true
            · simpa [hph] using hmatch
            · simp only [hph, Bool.false_eq_true, if_false, Bool.and_eq_true] at hmatch
              exact hmatch.2
          obtain ⟨c, cs, hl⟩ := hex hx
          obtain ⟨hcmem, hcx⟩ := hcand c (by rw [hl]; exact List.mem_cons_self _ _) hx
          have hgc := hchildren c hcmem
          rw [hcx] at hgc
          obtain ⟨y, hy1, hy2⟩ := ih segs (path ++ [x]) c hgc hp' hmatch'
            (fun _ => by rw [hcx]; simpa using hsx)
          rw [hl]
          exact ⟨y, firstResult_cons_some _ hy1, hy2⟩

theorem drop_eq_cons {segs : List Str} {index : Nat} {s : Str} {rest : List Str}
    (h : segs.drop index = s :: rest) :
    segs[index]? = some s ∧ segs.drop (index + 1) = rest ∧ index < segs.length := by
  induction segs generalizing index with
  | nil => simp at h
  | cons a segs ih =>
    cases index with
    | zero =>
      simp only [List.drop_zero, List.cons.injEq] at h
      obtain ⟨rfl, rfl⟩ := h
      simp
    | succ i =>
      simp only [List.drop_succ_cons] at h
      obtain ⟨h1, h2, h3⟩ := ih h
      exact ⟨by simpa using h1, by simpa using h2, by simpa using h3⟩

/-- The binding loop does not run out of request segments when they
instantiate the pattern parts. -/
theorem bindParams_total (searchParts : List Str) :
    ∀ (parts : List Str) (index : Nat) (params0 : GoMap Str),
      (∀ x ∈ parts, x ≠ []) → matchesParts parts (searchParts.drop index) = true →
      ∃ params, bindParams searchParts index parts params0 = some params := by
  intro parts
  induction parts with
  | nil => intro index params0 _ _; exact ⟨params0, rfl⟩
  | cons part parts ih =>
    intro index params0 hne hmatch
    have hne' : ∀ x ∈ parts, x ≠ [] := fun x hx => hne x (List.mem_cons_of_mem _ hx)
    cases part with
    | nil => exact absurd rfl (hne [] (List.mem_cons_self _ _))
    | cons c name =>
      cases hd : searchParts.drop index with
      | nil => simp [hd, matchesParts] at hmatch
      | cons s rest =>
        obtain ⟨h1, h2, h3⟩ := drop_eq_cons hd
        rw [hd] at hmatch
        simp only [matchesParts] at hmatch
        simp only [bindParams, h1, Option.map_some']
        by_cases hc : c = ':'
        · subst hc
          have hns : ¬ (':' = '*' ∧ (':' :: name).length > 1) := by
            rintro ⟨e, -⟩; exact absurd e (by decide)
          have hm' : matchesParts parts (searchParts.drop (index + 1)) = true := by
            rw [h2]
            simpa [startsWithStar, isPlaceholder] using hmatch
          simp only [if_true, if_neg hns]
          exact ih _ _ hne' hm'
        · simp only [hc, if_false]
          by_cases hs : c = '*' ∧ (c :: name).length > 1
          · rw [if_pos hs, if_pos (Nat.le_of_lt h3)]
            exact ⟨_, rfl⟩
          · rw [if_neg hs]
            by_cases hstar : c = '*'
            · subst hstar
              have : parts = [] := by simpa [startsWithStar] using hmatch
              subst this
              exact ⟨_, rfl⟩
            · have hm' : matchesParts parts (searchParts.drop (index + 1)) = true := by
                have hst : startsWithStar (c :: name) = false := by simp [startsWithStar, hstar]
                have hph : isPlaceholder (c :: name) = false := by
                  simp [isPlaceholder, hc, hstar]
                rw [h2]
                rw [hst, hph] at hmatch
                simp only [Bool.false_eq_true, if_false, Bool.and_eq_true] at hmatch
                exact hmatch.2
              exact ih _ _ hne' hm'

theorem lastRegistered_mem {H : Type} {method pattern : Str} {handler : H} :
    ∀ regs : List (Reg H), lastRegistered regs method pattern = some handler →
      pattern ∈ patternsOf method regs := by
  intro regs
  induction regs with
  | nil => intro h; simp [lastRegistered] at h
  | cons reg regs ih =>
    intro h
    obtain ⟨m, p, h0⟩ := reg
    simp only [lastRegistered] at h
    cases hl : lastRegistered regs method pattern with
    | some h' =>
      have := ih (by simpa [hl] using h)
      simp only [patternsOf, List.mem_map, List.mem_filter, decide_eq_true_eq] at this ⊢
      obtain ⟨a, ⟨ha1, ha2⟩, ha3⟩ := this
      exact ⟨a, ⟨List.mem_cons_of_mem _ ha1, ha2⟩, ha3⟩
    | none =>
      simp only [hl] at h
      split at h
      · next hmp =>
        simp only [patternsOf, List.mem_map, List.mem_filter, decide_eq_true_eq]
        exact ⟨(m, p, h0), ⟨List.mem_cons_self _ _, hmp.1⟩, hmp.2⟩
      · simp at h

/-- The handler map after a sequence of `addRoute` calls, at a key that only
registrations of `(method, pattern)` produce. -/
theorem addRoutes_handlers {H : Type} (method pattern : Str) :
    ∀ (regs : List (Reg H)) (r r' : router H), addRoutes r regs = some r' →
      (∀ reg ∈ regs, routeKey reg.1 reg.2.1 = routeKey method pattern →
        reg.1 = method ∧ reg.2.1 = pattern) →
      r'.handlers (routeKey method pattern) =
        match lastRegistered regs method pattern with
        | some h => some h
        | none => r.handlers (routeKey method pattern) := by
  intro regs
  induction regs with
  | nil =>
    intro r r' h _
    simp only [addRoutes, Option.some.injEq] at h
    subst h
    rfl
  | cons reg regs ih =>
    intro r r' h hkey
    obtain ⟨m, p, h0⟩ := reg
    simp only [addRoutes] at h
    cases h1 : addRoute r m p h0 with
    | none => simp [h1] at h
    | some r1 =>
      simp only [h1] at h
      have hrec := ih r1 r' h (fun reg hreg => hkey reg (List.mem_cons_of_mem _ hreg))
      rw [hrec]
      simp only [lastRegistered]
      cases hl : lastRegistered regs method pattern with
      | some h' => rfl
      | none =>
        simp only
        rw [(addRoute_spec h1).2.2]
        by_cases hmp : m = method ∧ p = pattern
        · obtain ⟨rfl, rfl⟩ := hmp
          simp [GoMap.set]
        · have hk : routeKey method pattern ≠ routeKey m p := by
            intro e
            exact hmp (hkey (m, p, h0) (List.mem_cons_self _ _) e.symm)
          simp [GoMap.set, hk, hmp]

theorem Good_zero : Good [] [] node.zero := by
  refine Good.mk _ _ ?_ ?_ ?_ ?_ ?_ ?_ <;> simp [node.zero]

theorem patternsOf_cons_same {H : Type} (method pattern : Str) (handler : H)
    (regs : List (Reg H)) :
    patternsOf method ((method, pattern, handler) :: regs)
      = pattern :: patternsOf method regs := by
  simp [patternsOf]

theorem patternsOf_cons_other {H : Type} {method m : Str} (pattern : Str) (handler : H)
    (regs : List (Reg H)) (h : m ≠ method) :
    patternsOf method ((m, pattern, handler) :: regs) = patternsOf method regs := by
  simp [patternsOf, h]

/-- The trie of `method` after a sequence of `addRoute` calls whose patterns
under `method` are pairwise compatible is the prefix tree of those patterns. -/
theorem addRoutes_good {H : Type} (method : Str) :
    ∀ (regs : List (Reg H)) (r r' : router H) (Q : List Str),
      addRoutes r regs = some r' →
      Good Q [] ((r.roots method).getD node.zero) →
      ((r.roots method).getD node.zero).part = [] →
      (Q ≠ [] → (r.roots method).isSome = true) →
      (∀ q ∈ Q ++ patternsOf method regs, ∀ q' ∈ Q ++ patternsOf method regs,
        compatible (parsePattern q) (parsePattern q') = true) →
      Good (Q ++ patternsOf method regs) [] ((r'.roots method).getD node.zero) ∧
        ((r'.roots method).getD node.zero).part = [] ∧
        (Q ++ patternsOf method regs ≠ [] → (r'.roots method).isSome = true) := by
  intro regs
  induction regs with
  | nil =>
    intro r r' Q h hg hpart hsome _
    simp only [addRoutes, Option.some.injEq] at h
    subst h
    simpa [patternsOf] using ⟨hg, hpart, hsome⟩
  | cons reg regs ih =>
    intro r r' Q h hg hpart hsome hcompat
    obtain ⟨m, p, h0⟩ := reg
    simp only [addRoutes] at h
    cases h1 : addRoute r m p h0 with
    | none => simp [h1] at h
    | some r1 =>
      simp only [h1] at h
      obtain ⟨⟨root1, hins, hroot1⟩, hother, -⟩ := addRoute_spec h1
      by_cases hm : m = method
      · subst hm
        rw [patternsOf_cons_same] at hcompat ⊢
        have e : Q ++ p :: patternsOf m regs = (Q ++ [p]) ++ patternsOf m regs := by simp
        rw [e] at hcompat ⊢
        have hg1 : Good (Q ++ [p]) [] root1 := by
          refine good_insert p ?_ (parsePattern p) [] _ root1 hg (by simp) hins
          intro q hq
          exact hcompat q (List.mem_append_left _ (List.mem_append_left _ hq))
            p (List.mem_append_left _ (List.mem_append_right _ (List.mem_singleton_self _)))
        refine ih r1 r' (Q ++ [p]) h (by rw [hroot1]; exact hg1) ?_ ?_ hcompat
        · rw [hroot1, Option.getD_some, (insert_part_isWild hins).1]
          exact hpart
        · intro _
          rw [hroot1]; rfl
      · rw [patternsOf_cons_other p h0 regs hm] at hcompat ⊢
        have hr : r1.roots method = r.roots method := hother method (fun e => hm e.symm)
        exact ih r1 r' Q h (by rw [hr]; exact hg) (by rw [hr]; exact hpart)
          (by rw [hr]; exact hsome) hcompat

/-! ### Claim C1: registered routes resolve -/

/-- C1 (amended). After any sequence of `addRoute` calls from the empty router
in which the patterns registered under `method` are pairwise compatible (two
of them agree up to the first part where they differ, and there neither is a
placeholder), for a non-empty `pattern` whose last registration under
`method` has handler `handler`, which is the only pattern under `method` with
its parts and whose handler key no other registration produces: resolving
`(method, path)`, where the segments of `path` instantiate the parts of
`pattern`, finds a node whose pattern is `pattern`, the handler stored under
`method + "-" + node.pattern` is `handler`, and `ServeHTTP` calls it. -/
theorem C1_registered_route_resolves {H : Type} (regs : List (Reg H))
    (method pattern path : Str) (handler : H)
    (hreg : lastRegistered regs method pattern = some handler)
    (hne : pattern ≠ [])
    (hcompat : ∀ q ∈ patternsOf method regs, ∀ q' ∈ patternsOf method regs,
      compatible (parsePattern q) (parsePattern q') = true)
    (hnorm : ∀ q ∈ patternsOf method regs,
      parsePattern q = parsePattern pattern → q = pattern)
    (hkey : ∀ reg ∈ regs, routeKey reg.1 reg.2.1 = routeKey method pattern →
      reg.1 = method ∧ reg.2.1 = pattern)
    (hpath : matchesParts (parsePattern pattern) (parsePattern path) = true) :
    ∃ r n params, addRoutes (newRouter H) regs = some r ∧
      getRoute r method path = some (some (n, params)) ∧
      n.pattern = pattern ∧
      r.handlers (routeKey method n.pattern) = some handler ∧
      ServeHTTP r method path = some (.handled handler params) := by
  obtain ⟨r, hr⟩ := addRoutes_total regs (newRouter H)
  have hmem : pattern ∈ patternsOf method regs := lastRegistered_mem regs hreg
  obtain ⟨hgood, hpart, hsome⟩ := addRoutes_good method regs _ r [] hr
    (by simpa [newRouter, GoMap.empty] using Good_zero)
    (by simp [newRouter, GoMap.empty, node.zero])
    (by simp) (by simpa using hcompat)
  rw [List.nil_append] at hgood hsome
  obtain ⟨root, hroot⟩ := Option.isSome_iff_exists.1
    (hsome (List.ne_nil_of_mem hmem))
  rw [hroot, Option.getD_some] at hgood hpart
  obtain ⟨n, hsearch, hnp⟩ := good_search (fun q hq => hcompat q hq pattern hmem) hnorm hmem hne
    (parsePattern pattern) (parsePattern path) [] root hgood (by simp) hpath
    (fun _ => by rw [hpart]; rfl)
  obtain ⟨params, hbind⟩ := bindParams_total (parsePattern path) (parsePattern pattern) 0
    GoMap.empty (parsePattern_ne_nil pattern) (by simpa using hpath)
  have hh := addRoutes_handlers method pattern regs _ r hr hkey
  rw [hreg] at hh
  have hget : getRoute r method path = some (some (n, params)) := by
    simp [getRoute, hroot, hsearch, hnp, hbind]
  refine ⟨r, n, params, hr, hget, hnp, by rw [hnp]; exact hh, ?_⟩
  simp [ServeHTTP, hget, hnp, hh]

/-- C1 at GET `/assets/css/a/b.css` with the routes of `main`. -/
theorem C1_witness :
    ∃ r n params, addRoutes (newRouter Nat) mainRoutes = some r ∧
      getRoute r "GET".toList "/assets/css/a/b.css".toList = some (some (n, params)) ∧
      n.pattern = "/assets/*filepath".toList ∧
      r.handlers (routeKey "GET".toList n.pattern) = some 3 ∧
      ServeHTTP r "GET".toList "/assets/css/a/b.css".toList = some (.handled 3 params) :=
  C1_registered_route_resolves mainRoutes "GET".toList "/assets/*filepath".toList
    "/assets/css/a/b.css".toList 3 (by decide) (by decide) (by decide) (by decide)
    (by decide) (by decide)

/-- C1 as stated fails at each of these inputs, the handler registered for
the pattern being 1 in every line.
* GET `/:p` (1) beside GET `/a` (2): the path `/a` instantiates `/:p`, but
  the literal child is the first match and handler 2 is called.
* GET `/hello/:name` (1), then GET `/hello/world` (2): `insert` reuses the
  wildcard child and overwrites its pattern, so `/hello/geektutu` calls
  handler 2.
* GET `/a/` (1), then GET `/a` (2): both have the parts `[a]`, the node keeps
  the later pattern, and the path `/a/` calls handler 2.
* Method `A` with the pattern `B-` + `/x` (1), then method `A-B` with the
  pattern `/x` (2): both have the handler key `A-B-` + `/x`, and the request
  for the first calls handler 2.
* GET `/a/:x/b` (1): with `:x` replaced by `*z` the path `/a/*z/b` is cut
  after `*z` and nothing is found.
* GET with the empty pattern (1): the empty path is not found. -/
theorem C1_counterexample :
    serveAfter [("GET".toList, "/a".toList, 2), ("GET".toList, "/:p".toList, 1)]
        "GET".toList "/a".toList = some (.handled 2 GoMap.empty) ∧
    serveAfter [("GET".toList, "/hello/:name".toList, 1),
        ("GET".toList, "/hello/world".toList, 2)]
        "GET".toList "/hello/geektutu".toList = some (.handled 2 GoMap.empty) ∧
    serveAfter [("GET".toList, "/a/".toList, 1), ("GET".toList, "/a".toList, 2)]
        "GET".toList "/a/".toList = some (.handled 2 GoMap.empty) ∧
    serveAfter [("A".toList, "B-/x".toList, 1), ("A-B".toList, "/x".toList, 2)]
        "A".toList "B-/x".toList = some (.handled 2 GoMap.empty) ∧
    serveAfter [("GET".toList, "/a/:x/b".toList, 1)]
        "GET".toList "/a/*z/b".toList = some .notFound ∧
    serveAfter [("GET".toList, [], 1)] "GET".toList [] = some .notFound :=
  ⟨rfl, rfl, rfl, rfl, rfl, rfl⟩

/-! ### Claim C11: a catch-all needs a segment -/

/-- Inserting literal parts followed by a catch-all part below a childless
node without a pattern leaves every node on the literal chain without a
pattern: searching the literal parts alone finds nothing. -/
theorem search_literal_chain (pattern star : Str) (hstar : star ≠ []) :
    ∀ (lits : List Str) (n n' : node), n.children = [] → n.pattern = [] →
      startsWithStar n.part = false →
      (∀ l ∈ lits, l ≠ [] ∧ isPlaceholder l = false) →
      insert pattern (lits ++ [star]) n = some n' → search lits n' = none := by
  intro lits
  induction lits with
  | nil =>
    intro n n' hc hp _ _ hins
    cases star with
    | nil => exact absurd rfl hstar
    | cons c cs =>
      simp only [List.nil_append, insert, matchChild, hc, List.find?_nil,
        Option.map_some', Option.some.injEq] at hins
      subst hins
      simp [search, terminal, hp]
  | cons l rest ih =>
    intro n n' hc hp hs hl hins
    obtain ⟨hlne, hlph⟩ := hl l (List.mem_cons_self _ _)
    cases l with
    | nil => exact absurd rfl hlne
    | cons c cs =>
      simp only [List.cons_append, insert, matchChild, hc, List.find?_nil,
        Option.map_eq_some'] at hins
      obtain ⟨c', hc', rfl⟩ := hins
      have hphc : (c == ':' || c == '*') = false := by simpa [isPlaceholder] using hlph
      rw [hphc] at hc'
      have hcs : startsWithStar (c :: cs) = false := by
        cases h : startsWithStar (c :: cs) with
        | false => rfl
        | true =>
          have := startsWithStar_isPlaceholder h
          rw [hlph] at this
          cases this
      have hrec := ih (node.mk [] (c :: cs) [] false) c' rfl rfl hcs
        (fun l hl' => hl l (List.mem_cons_of_mem _ hl')) hc'
      have hpart : c'.part = c :: cs := (insert_part_isWild hc').1
      simp [search, hs, matchChildren, childMatches, hpart, firstResult, hrec]

/-- The root of `method` when every registration under `method` has the same
pattern: absent, or the trie of that one pattern. -/
theorem addRoutes_single_pattern {H : Type} (method pattern : Str) (root1 : node)
    (hroot1 : insert pattern (parsePattern pattern) node.zero = some root1) :
    ∀ (regs : List (Reg H)) (r r' : router H), addRoutes r regs = some r' →
      (∀ reg ∈ regs, reg.1 = method → reg.2.1 = pattern) →
      (r.roots method = none ∨ r.roots method = some root1) →
      (r'.roots method = none ∨ r'.roots method = some root1) := by
  intro regs
  induction regs with
  | nil =>
    intro r r' h _ hr
    simp only [addRoutes, Option.some.injEq] at h
    subst h
    exact hr
  | cons reg regs ih =>
    intro r r' h honly hr
    obtain ⟨m, p, h0⟩ := reg
    simp only [addRoutes] at h
    cases h1 : addRoute r m p h0 with
    | none => simp [h1] at h
    | some r1 =>
      simp only [h1] at h
      refine ih r1 r' h (fun reg hreg => honly reg (List.mem_cons_of_mem _ hreg)) ?_
      obtain ⟨⟨root', hins, hroot'⟩, hother, -⟩ := addRoute_spec h1
      by_cases hm : m = method
      · subst hm
        have hp : p = pattern := honly (m, p, h0) (List.mem_cons_self _ _) rfl
        subst hp
        right
        rcases hr with hr | hr
        · rw [hr] at hins
          rw [hroot', ← hroot1]
          exact hins.symm
        · rw [hr, Option.getD_some, insert_idem _ _ _ _ hroot1] at hins
          rw [hroot', ← hins]
      · rw [hother method (fun e => hm e.symm)]
        exact hr

/-- C11. A catch-all needs at least one remaining segment: after any sequence
of `addRoute` calls in which every registration under `method` has the same
pattern, made of literal parts followed by a last part that begins with
`'*'`, resolving a path whose segments are the literal parts alone returns
`(nil, nil)`, and `ServeHTTP` answers 404. -/
theorem C11_catch_all_needs_segment {H : Type} (regs : List (Reg H))
    (method pattern path : Str) (lits : List Str) (star : Str)
    (honly : ∀ reg ∈ regs, reg.1 = method → reg.2.1 = pattern)
    (hparts : parsePattern pattern = lits ++ [star])
    (hstar : startsWithStar star = true)
    (hlits : ∀ l ∈ lits, isPlaceholder l = false)
    (hpath : parsePattern path = lits) :
    ∃ r, addRoutes (newRouter H) regs = some r ∧
      getRoute r method path = some none ∧
      ServeHTTP r method path = some .notFound := by
  obtain ⟨r, hr⟩ := addRoutes_total regs (newRouter H)
  obtain ⟨root1, hroot1⟩ := insert_total pattern _ (parsePattern_ne_nil pattern) node.zero
  have hstar' : star ≠ [] := by
    rintro rfl
    simp [startsWithStar] at hstar
  have hlits' : ∀ l ∈ lits, l ≠ [] ∧ isPlaceholder l = false := by
    intro l hl
    refine ⟨parsePattern_ne_nil pattern l ?_, hlits l hl⟩
    rw [hparts]
    exact List.mem_append_left _ hl
  have hsearch : search lits root1 = none := by
    rw [hparts] at hroot1
    exact search_literal_chain pattern star hstar' lits node.zero root1 rfl rfl rfl
      hlits' hroot1
  have hget : getRoute r method path = some none := by
    rcases addRoutes_single_pattern method pattern root1 hroot1 regs _ r hr honly
      (Or.inl rfl) with h | h
    · simp [getRoute, h]
    · simp [getRoute, h, hpath, hsearch]
  exact ⟨r, hr, hget, by simp [ServeHTTP, hget]⟩

/-- C11 at GET `/assets/` with GET `/assets/*filepath` as the only GET route. -/
theorem C11_witness :
    ∃ r, addRoutes (newRouter Nat)
        [("GET".toList, "/assets/*filepath".toList, 3),
         ("POST".toList, "/assets".toList, 4)] = some r ∧
      getRoute r "GET".toList "/assets/".toList = some none ∧
      ServeHTTP r "GET".toList "/assets/".toList = some .notFound :=
  C11_catch_all_needs_segment
    [("GET".toList, "/assets/*filepath".toList, 3), ("POST".toList, "/assets".toList, 4)]
    "GET".toList "/assets/*filepath".toList "/assets/".toList
    ["assets".toList] "*filepath".toList
    (by decide) (by decide) (by decide) (by decide) (by decide)

/-! ### Claim C12: method isolation -/

/-- The method `addRoute` leaves `getRoute` under every other method as it
was. -/
theorem getRoute_addRoute_other {H : Type} {R R' : router H} {m m' p : Str} {h : H}
    (hadd : addRoute R m p h = some R') (hne : m ≠ m') (q : Str) :
    getRoute R' m' q = getRoute R m' q := by
  have hroots : R'.roots m' = R.roots m' := (addRoute_spec hadd).2.1 m' (fun e => hne e.symm)
  simp only [getRoute, hroots]

/-- C12 (amended). Method isolation: from every router state, for distinct
methods `m` and `m'`, `addRoute m p h` leaves `getRoute m' q` (the node found
and the params) as it was for every path `q`; and when no pattern gives `m'`
the handler key `m + "-" + p`, it leaves what `ServeHTTP` does with `(m', q)`
as it was: the same 404, or the same handler with the same params. -/
theorem C12_method_isolation {H : Type} (R : router H) (m m' p q : Str) (h : H)
    (hne : m ≠ m') :
    ∃ R', addRoute R m p h = some R' ∧
      getRoute R' m' q = getRoute R m' q ∧
      ((∀ p', routeKey m' p' ≠ routeKey m p) → ServeHTTP R' m' q = ServeHTTP R m' q) := by
  obtain ⟨R', hR'⟩ := addRoute_total R m p h
  have hget := getRoute_addRoute_other hR' hne q
  refine ⟨R', hR', hget, ?_⟩
  intro hkey
  have hh : ∀ p', R'.handlers (routeKey m' p') = R.handlers (routeKey m' p') := by
    intro p'
    rw [(addRoute_spec hR').2.2]
    simp [GoMap.set, hkey p']
  simp only [ServeHTTP, hget, hh]

/-- A method without `'-'` shares no handler key with another such method. -/
theorem routeKey_ne_of_no_dash {m m' : Str} (hm : '-' ∉ m) (hm' : '-' ∉ m') (hne : m ≠ m')
    (p p' : Str) : routeKey m' p' ≠ routeKey m p := by
  intro e
  apply hne
  clear hne
  induction m generalizing m' with
  | nil =>
    cases m' with
    | nil => rfl
    | cons c cs =>
      simp only [routeKey, List.cons_append, List.nil_append, List.cons.injEq] at e
      exact absurd (List.mem_cons.2 (Or.inl e.1.symm)) hm'
  | cons a as ih =>
    cases m' with
    | nil =>
      simp only [routeKey, List.cons_append, List.nil_append, List.cons.injEq] at e
      exact absurd (List.mem_cons.2 (Or.inl e.1)) hm
    | cons c cs =>
      simp only [routeKey, List.cons_append, List.cons.injEq] at e
      obtain ⟨e1, e2⟩ := e
      subst e1
      rw [ih (fun hin => hm (List.mem_cons_of_mem _ hin))
        (fun hin => hm' (List.mem_cons_of_mem _ hin)) e2]

/-- C12 at POST `/hello/:name` added to the router of GET `/hello/:name`. -/
theorem C12_witness :
    ∃ R', addRoute helloRouter "POST".toList "/hello/:name".toList 5 = some R' ∧
      getRoute R' "GET".toList "/hello/geektutu".toList
        = getRoute helloRouter "GET".toList "/hello/geektutu".toList ∧
      ServeHTTP R' "GET".toList "/hello/geektutu".toList
        = ServeHTTP helloRouter "GET".toList "/hello/geektutu".toList := by
  obtain ⟨R', h1, h2, h3⟩ := C12_method_isolation helloRouter "POST".toList "GET".toList
    "/hello/:name".toList "/hello/geektutu".toList 5 (by decide)
  exact ⟨R', h1, h2, h3 (fun p' => routeKey_ne_of_no_dash (by decide) (by decide)
    (by decide) _ _)⟩

/-- C12 as stated fails for the methods `A-B` and `A`: after method `A` has
the pattern `B-` + `/x` with handler 1, `addRoute("A-B", "/x", 2)` writes the
handler key that method `A` uses for its pattern, and the request of method
`A` for that pattern calls handler 2 instead of handler 1. -/
theorem C12_counterexample :
    "A-B".toList ≠ "A".toList ∧
    serveAfter [("A".toList, "B-/x".toList, 1)] "A".toList "B-/x".toList
      = some (.handled 1 GoMap.empty) ∧
    serveAfter [("A".toList, "B-/x".toList, 1), ("A-B".toList, "/x".toList, 2)]
        "A".toList "B-/x".toList
      = some (.handled 2 GoMap.empty) :=
  ⟨by decide, rfl, rfl⟩

/-! ### Claim C13: trie shape -/

theorem Shaped_zero : Shaped node.zero := by
  refine Shaped.mk _ ?_ ?_ ?_ ?_ <;> simp [node.zero]

/-- The method `insert` keeps the shape of a trie. -/
theorem Shaped_insert (pattern : Str) :
    ∀ (parts : List Str) (n n' : node), Shaped n →
      insert pattern parts n = some n' → Shaped n' := by
  intro parts
  induction parts with
  | nil =>
    intro n n' hs hins
    simp only [insert, Option.some.injEq] at hins
    subst hins
    cases hs with
    | mk _ hchildren hwild hnodup hone => exact Shaped.mk _ hchildren hwild hnodup hone
  | cons x rest ih =>
    intro n n' hs hins
    simp only [insert] at hins
    cases hs with
    | mk _ hchildren hwild hnodup hone =>
      cases hm : matchChild n x with
      | some c =>
        simp only [hm, Option.map_eq_some'] at hins
        obtain ⟨c', hc', rfl⟩ := hins
        obtain ⟨hcm, l1, l2, hsplit, hl1⟩ := List.find?_eq_some.1 hm
        have hcmem : c ∈ n.children := by rw [hsplit]; simp
        obtain ⟨hp', hw'⟩ := insert_part_isWild hc'
        have hrep : replaceMatched x c' n.children = l1 ++ c' :: l2 := by
          rw [hsplit]
          exact replaceMatched_split x c' c l1 l2 (fun a ha => by simpa using hl1 a ha) hcm
        have hmem : ∀ d ∈ l1 ++ c' :: l2, d = c' ∨ d ∈ n.children := by
          intro d hd
          rw [hsplit]
          rcases List.mem_append.1 hd with hd | hd
          · exact Or.inr (List.mem_append_left _ hd)
          · rcases List.mem_cons.1 hd with rfl | hd
            · exact Or.inl rfl
            · exact Or.inr (List.mem_append_right _ (List.mem_cons_of_mem _ hd))
        refine Shaped.mk _ ?_ ?_ ?_ ?_
        · intro d hd
          rw [node.children_setChildren, hrep] at hd
          rcases hmem d hd with rfl | hd
          · exact ih c d (hchildren c hcmem) hc'
          · exact hchildren d hd
        · intro d hd
          rw [node.children_setChildren, hrep] at hd
          rcases hmem d hd with rfl | hd
          · rw [hw', hp']; exact hwild c hcmem
          · exact hwild d hd
        · rw [node.children_setChildren, hrep]
          rw [hsplit] at hnodup
          simpa [hp'] using hnodup
        · rw [node.children_setChildren, hrep]
          rw [hsplit] at hone
          simpa [List.countP_append, List.countP_cons, hw'] using hone
      | none =>
        cases x with
        | nil => simp [hm] at hins
        | cons ch cs =>
          simp only [hm, Option.map_eq_some'] at hins
          obtain ⟨c', hc', rfl⟩ := hins
          obtain ⟨hp', hw'⟩ := insert_part_isWild hc'
          simp only [node.part_mk, node.isWild_mk] at hp' hw'
          have hnone : ∀ d ∈ n.children, d.part ≠ ch :: cs ∧ d.isWild = false := by
            intro d hd
            have := List.find?_eq_none.1 hm d hd
            simpa [childMatches] using this
          have hc0 : Shaped (node.mk [] (ch :: cs) [] (ch == ':' || ch == '*')) := by
            refine Shaped.mk _ ?_ ?_ ?_ ?_ <;> simp
          refine Shaped.mk _ ?_ ?_ ?_ ?_
          · intro d hd
            rw [node.children_setChildren] at hd
            rcases List.mem_append.1 hd with hd | hd
            · exact hchildren d hd
            · rw [List.mem_singleton] at hd
              subst hd
              exact ih _ _ hc0 hc'
          · intro d hd
            rw [node.children_setChildren] at hd
            rcases List.mem_append.1 hd with hd | hd
            · exact hwild d hd
            · rw [List.mem_singleton] at hd
              subst hd
              rw [hp', hw']; rfl
          · rw [node.children_setChildren, List.map_append, List.map_singleton, hp',
              List.nodup_append]
            refine ⟨hnodup, List.nodup_singleton _, ?_⟩
            intro y hy hy'
            rw [List.mem_singleton] at hy'
            subst hy'
            obtain ⟨d, hd, hdx⟩ := List.mem_map.1 hy
            exact (hnone d hd).1 hdx
          · rw [node.children_setChildren, List.countP_append]
            have h0 : n.children.countP (fun c => c.isWild) = 0 := by
              rw [List.countP_eq_zero]
              intro d hd
              simp [(hnone d hd).2]
            rw [h0]
            simp only [List.countP_cons, List.countP_nil, zero_add]
            split <;> simp

theorem Shaped_insertAll :
    ∀ (patterns : List Str) (root T : node), Shaped root →
      insertAll root patterns = some T → Shaped T := by
  intro patterns
  induction patterns with
  | nil =>
    intro root T hs h
    simp only [insertAll, Option.some.injEq] at h
    subst h
    exact hs
  | cons p ps ih =>
    intro root T hs h
    simp only [insertAll] at h
    cases h1 : insert p (parsePattern p) root with
    | none => simp [h1] at h
    | some root' =>
      simp only [h1] at h
      exact ih root' T (Shaped_insert p _ _ _ hs h1) h

theorem insertAll_total :
    ∀ (patterns : List Str) (root : node), ∃ T, insertAll root patterns = some T := by
  intro patterns
  induction patterns with
  | nil => intro root; exact ⟨root, rfl⟩
  | cons p ps ih =>
    intro root
    obtain ⟨root', h1⟩ := insert_total p _ (parsePattern_ne_nil p) root
    obtain ⟨T, h2⟩ := ih root'
    exact ⟨T, by simp [insertAll, h1, h2]⟩

theorem Shaped_descAt {k : Nat} {T n : node} (hd : DescAt k T n) (hs : Shaped T) :
    Shaped n := by
  induction hd with
  | here => exact hs
  | step hc _ ih =>
    cases hs with
    | mk _ hchildren => exact ih (hchildren _ hc)

theorem eq_of_countP_le_one {p : node → Bool} :
    ∀ (l : List node), l.countP p ≤ 1 →
      ∀ a ∈ l, ∀ b ∈ l, p a = true → p b = true → a = b := by
  intro l
  induction l with
  | nil => intro _ a ha; simp at ha
  | cons d ds ih =>
    intro h a ha b hb hpa hpb
    by_cases hpd : p d = true
    · have h0 : ds.countP p = 0 := by
        simp only [List.countP_cons, hpd, if_true] at h
        omega
      rw [List.countP_eq_zero] at h0
      rcases List.mem_cons.1 ha with rfl | ha
      · rcases List.mem_cons.1 hb with rfl | hb
        · rfl
        · exact absurd hpb (h0 b hb)
      · exact absurd hpa (h0 a ha)
    · simp only [List.countP_cons, hpd, Bool.false_eq_true, if_false, add_zero] at h
      rcases List.mem_cons.1 ha with rfl | ha
      · exact absurd hpa hpd
      · rcases List.mem_cons.1 hb with rfl | hb
        · exact absurd hpb hpd
        · exact ih h a ha b hb hpa hpb

/-- C13. Trie shape invariant: in every trie built from an empty root by a
sequence of `insert` calls with `parts = parsePattern(pattern)`, at every node
no two children have the same segment text and at most one child has
`isWild = true`; and where a wildcard child exists, `matchChild` on a segment
that begins with `':'` or `'*'` returns that child whatever its name, so
`insert` descends into it and adds no child. -/
theorem C13_trie_shape (patterns : List Str) :
    ∃ T, insertAll node.zero patterns = some T ∧
      ∀ k n, DescAt k T n →
        (n.children.map node.part).Nodup ∧
        n.children.countP (fun c => c.isWild) ≤ 1 ∧
        ∀ w ∈ n.children, w.isWild = true → ∀ x, isPlaceholder x = true →
          matchChild n x = some w ∧
          ∀ pattern rest n', insert pattern (x :: rest) n = some n' →
            ∃ w', insert pattern rest w = some w' ∧
              n'.children = replaceMatched x w' n.children ∧
              n'.children.map node.part = n.children.map node.part := by
  obtain ⟨T, hT⟩ := insertAll_total patterns node.zero
  refine ⟨T, hT, ?_⟩
  intro k n hd
  have hs : Shaped n := Shaped_descAt hd (Shaped_insertAll patterns _ _ Shaped_zero hT)
  cases hs with
  | mk _ hchildren hwild hnodup hone =>
    refine ⟨hnodup, hone, ?_⟩
    intro w hw hww x hx
    have hmatch : matchChild n x = some w := by
      cases hm : matchChild n x with
      | none =>
        have := List.find?_eq_none.1 hm w hw
        simp [childMatches, hww] at this
      | some c =>
        have hcmem : c ∈ n.children := List.mem_of_find?_eq_some hm
        have hcm : childMatches x c = true := List.find?_some hm
        have hcw : c.isWild = true := by
          simp only [childMatches, Bool.or_eq_true, beq_iff_eq] at hcm
          rcases hcm with hcm | hcm
          · rw [hwild c hcmem, hcm]; exact hx
          · exact hcm
        rw [eq_of_countP_le_one _ hone c hcmem w hw hcw hww]
    refine ⟨hmatch, ?_⟩
    intro pattern rest n' hins
    simp only [insert, hmatch, Option.map_eq_some'] at hins
    obtain ⟨w', hw', rfl⟩ := hins
    refine ⟨w', hw', rfl, ?_⟩
    obtain ⟨hcm, l1, l2, hsplit, hl1⟩ := List.find?_eq_some.1 hmatch
    rw [node.children_setChildren, hsplit,
      replaceMatched_split x w' w l1 l2 (fun a ha => by simpa using hl1 a ha) hcm]
    simp [(insert_part_isWild hw').1]

/-- C13 at the node `hello` of the trie of `/hello/:name` and `/hello/:id/x`:
the child `:name` is reused for the segment `:id`. -/
theorem C13_witness :
    ∃ T n w, insertAll node.zero ["/hello/:name".toList, "/hello/:id/x".toList] = some T ∧
      DescAt 1 T n ∧ w ∈ n.children ∧ w.part = ":name".toList ∧
      (n.children.map node.part).Nodup ∧
      n.children.countP (fun c => c.isWild) ≤ 1 ∧
      matchChild n ":id".toList = some w := by
  obtain ⟨T, hT, h⟩ := C13_trie_shape ["/hello/:name".toList, "/hello/:id/x".toList]
  have e : insertAll node.zero ["/hello/:name".toList, "/hello/:id/x".toList]
      = some (.mk [] [] [.mk [] "hello".toList
          [.mk "/hello/:name".toList ":name".toList
            [.mk "/hello/:id/x".toList "x".toList [] false] true] false] false) := rfl
  rw [e] at hT
  cases hT
  obtain ⟨h1, h2, h3⟩ := h 1
    (.mk [] "hello".toList
      [.mk "/hello/:name".toList ":name".toList
        [.mk "/hello/:id/x".toList "x".toList [] false] true] false)
    (DescAt.step (List.mem_singleton_self _) (DescAt.here _))
  exact ⟨_, _, _, e, DescAt.step (List.mem_singleton_self _) (DescAt.here _),
    List.mem_singleton_self _, rfl, h1, h2,
    (h3 _ (List.mem_singleton_self _) rfl ":id".toList (by decide)).1⟩

/-! ### Claim C14: search is a depth-first search -/

theorem firstResult_of_mem {f : node → Option node} :
    ∀ (cs : List node) (c y : node), c ∈ cs → f c = some y →
      ∃ x, firstResult f cs = some x := by
  intro cs
  induction cs with
  | nil => intro c y hc; simp at hc
  | cons d ds ih =>
    intro c y hc hf
    simp only [firstResult]
    cases hd : f d with
    | some z => exact ⟨z, rfl⟩
    | none =>
      rcases List.mem_cons.1 hc with rfl | hc
      · rw [hd] at hf; cases hf
      · exact ih c y hc hf

/-- The result of the candidate loop is the result at the first child, by
position, that matches and has a result. -/
theorem firstResult_filter_some {f : node → Option node} {q : node → Bool} {x : node} :
    ∀ (l : List node), firstResult f (l.filter q) = some x →
      ∃ (i : Nat) (c : node), l[i]? = some c ∧ q c = true ∧ f c = some x ∧
        ∀ (j : Nat) (c' : node), j < i → l[j]? = some c' → q c' = true → f c' = none := by
  intro l
  induction l with
  | nil => intro h; simp [firstResult] at h
  | cons d ds ih =>
    intro h
    by_cases hq : q d = true
    · rw [List.filter_cons_of_pos hq] at h
      simp only [firstResult] at h
      cases hd : f d with
      | some y =>
        simp only [hd, Option.some.injEq] at h
        subst h
        exact ⟨0, d, by simp, hq, hd, fun j c' hj => absurd hj (Nat.not_lt_zero _)⟩
      | none =>
        simp only [hd] at h
        obtain ⟨i, c, h1, h2, h3, h4⟩ := ih h
        refine ⟨i + 1, c, by simpa using h1, h2, h3, ?_⟩
        intro j c' hj hj' hqc
        cases j with
        | zero =>
          simp only [List.getElem?_cons_zero, Option.some.injEq] at hj'
          subst hj'
          exact hd
        | succ j =>
          exact h4 j c' (Nat.lt_of_succ_lt_succ hj) (by simpa using hj') hqc
    · rw [List.filter_cons_of_neg hq] at h
      obtain ⟨i, c, h1, h2, h3, h4⟩ := ih h
      refine ⟨i + 1, c, by simpa using h1, h2, h3, ?_⟩
      intro j c' hj hj' hqc
      cases j with
      | zero =>
        simp only [List.getElem?_cons_zero, Option.some.injEq] at hj'
        subst hj'
        exact absurd hqc hq
      | succ j =>
        exact h4 j c' (Nat.lt_of_succ_lt_succ hj) (by simpa using hj') hqc

/-- Where a chain exists, `search` returns a node. -/
theorem search_of_chain {parts : List Str} {n : node} {is : List Nat} {x : node}
    (h : Chain parts n is x) : ∃ y, search parts n = some y := by
  induction h with
  | stop parts n hor hp =>
    cases parts with
    | nil => exact ⟨n, by rw [search, terminal_of_pattern hp]⟩
    | cons p rest =>
      rcases hor with hor | hor
      · cases hor
      · exact ⟨n, by rw [search, hor, if_pos rfl, terminal_of_pattern hp]⟩
  | step part rest n i c is x hs hc hm _ ih =>
    obtain ⟨y, hy⟩ := ih
    have hmem : c ∈ matchChildren n part :=
      List.mem_filter.2 ⟨List.getElem?_mem hc, hm⟩
    simp only [search, hs, Bool.false_eq_true, if_false]
    exact firstResult_of_mem _ c y hmem hy

/-- The node that `search` returns ends a chain, and that chain is the first
one in child order. -/
theorem chain_of_search :
    ∀ (parts : List Str) (n x : node), search parts n = some x →
      ∃ is, Chain parts n is x ∧
        ∀ is' x', Chain parts n is' x' → lexLe is is' = true := by
  intro parts
  induction parts with
  | nil =>
    intro n x h
    obtain ⟨rfl, hp⟩ := terminal_some (by simpa [search] using h)
    exact ⟨[], Chain.stop _ _ (Or.inl rfl) hp, fun _ _ _ => rfl⟩
  | cons part rest ih =>
    intro n x h
    simp only [search] at h
    by_cases hs : startsWithStar n.part = true
    · rw [if_pos hs] at h
      obtain ⟨rfl, hp⟩ := terminal_some h
      exact ⟨[], Chain.stop _ _ (Or.inr hs) hp, fun _ _ _ => rfl⟩
    · rw [if_neg hs] at h
      have hs' : startsWithStar n.part = false := by simpa using hs
      obtain ⟨i, c, h1, h2, h3, h4⟩ := firstResult_filter_some _ h
      obtain ⟨is, hchain, hmin⟩ := ih c x h3
      refine ⟨i :: is, Chain.step _ _ _ _ _ _ _ hs' h1 h2 hchain, ?_⟩
      intro is' x' hc'
      cases hc' with
      | stop _ _ hor _ =>
        rcases hor with hor | hor
        · cases hor
        · exact absurd hor hs
      | step _ _ _ j c' js _ _ hj hm hrest =>
        simp only [lexLe, Bool.or_eq_true, decide_eq_true_eq, Bool.and_eq_true, beq_iff_eq]
        rcases Nat.lt_trichotomy i j with hlt | heq | hgt
        · exact Or.inl hlt
        · subst heq
          rw [h1] at hj
          cases hj
          exact Or.inr ⟨rfl, hmin js _ hrest⟩
        · obtain ⟨y, hy⟩ := search_of_chain hrest
          rw [h4 j c' hgt hj hm] at hy
          cases hy

/-- C14. Search is a complete depth-first search with backtracking: on every
trie and every segment list, `search` returns a node if and only if a chain
exists (children matching the segments in turn, no node before the last with
a part beginning with `'*'`, ending when the segments are used up or at a
part beginning with `'*'`, on a node with a pattern); and the node returned
ends the chain that is first in child order. -/
theorem C14_search_depth_first (parts : List Str) (n : node) :
    ((∃ x, search parts n = some x) ↔ ∃ is x, Chain parts n is x) ∧
    ∀ x, search parts n = some x →
      ∃ is, Chain parts n is x ∧ ∀ is' x', Chain parts n is' x' → lexLe is is' = true := by
  refine ⟨⟨?_, ?_⟩, chain_of_search parts n⟩
  · rintro ⟨x, hx⟩
    obtain ⟨is, hc, -⟩ := chain_of_search parts n x hx
    exact ⟨is, x, hc⟩
  · rintro ⟨is, x, hc⟩
    exact search_of_chain hc

/-- C14 at the trie of `/a/x` and `/:p/y` and the segments `a`, `y`: the
search backtracks from the child `a` to the wildcard child. -/
theorem C14_witness :
    search ["a".toList, "y".toList]
        (.mk [] [] [.mk [] "a".toList [.mk "/a/x".toList "x".toList [] false] false,
          .mk [] ":p".toList [.mk "/:p/y".toList "y".toList [] false] true] false)
      = some (.mk "/:p/y".toList "y".toList [] false) ∧
    ∃ is, Chain ["a".toList, "y".toList]
        (.mk [] [] [.mk [] "a".toList [.mk "/a/x".toList "x".toList [] false] false,
          .mk [] ":p".toList [.mk "/:p/y".toList "y".toList [] false] true] false)
        is (.mk "/:p/y".toList "y".toList [] false) ∧
      ∀ is' x', Chain ["a".toList, "y".toList]
        (.mk [] [] [.mk [] "a".toList [.mk "/a/x".toList "x".toList [] false] false,
          .mk [] ":p".toList [.mk "/:p/y".toList "y".toList [] false] true] false)
        is' x' → lexLe is is' = true :=
  ⟨rfl, (C14_search_depth_first _ _).2 _ rfl⟩

/-! ### Claim C15: binding stays within bounds -/

/-- The binding loop does not panic when the pattern has no more parts than
there are request segments left. -/
theorem bindParams_in_bounds (searchParts : List Str) :
    ∀ (parts : List Str) (index : Nat) (params0 : GoMap Str),
      (∀ x ∈ parts, x ≠ []) → index + parts.length ≤ searchParts.length →
      ∃ params, bindParams searchParts index parts params0 = some params := by
  intro parts
  induction parts with
  | nil => intro index params0 _ _; exact ⟨params0, rfl⟩
  | cons part parts ih =>
    intro index params0 hne hlen
    have hne' : ∀ x ∈ parts, x ≠ [] := fun x hx => hne x (List.mem_cons_of_mem _ hx)
    simp only [List.length_cons] at hlen
    have hlt : index < searchParts.length := by omega
    have hrec : ∀ p, ∃ params, bindParams searchParts (index + 1) parts p = some params :=
      fun p => ih (index + 1) p hne' (by omega)
    cases part with
    | nil => exact absurd rfl (hne [] (List.mem_cons_self _ _))
    | cons c name =>
      simp only [bindParams]
      by_cases hc : c = ':'
      · subst hc
        have hns : ¬ (':' = '*' ∧ (':' :: name).length > 1) := by
          rintro ⟨e, -⟩; exact absurd e (by decide)
        simp only [if_true, List.getElem?_eq_getElem hlt, Option.map_some', if_neg hns]
        exact hrec _
      · simp only [hc, if_false]
        by_cases hs : c = '*' ∧ (c :: name).length > 1
        · rw [if_pos hs, if_pos (Nat.le_of_lt hlt)]
          exact ⟨_, rfl⟩
        · rw [if_neg hs]
          exact hrec _

/-- C15. Binding never indexes out of range: after any sequence of `addRoute`
calls from the empty router (none of which panics in `insert`), `getRoute`
does not panic on any method and path; and whenever `search` returns a node
`n`, the number of parts of `n.pattern` is the depth of `n`, which is at most
the number of request segments, no part is empty, and the binding loop ends
without a panic. -/
theorem C15_binding_in_bounds {H : Type} (regs : List (Reg H)) (method path : Str) :
    ∃ r, addRoutes (newRouter H) regs = some r ∧
      (∃ result, getRoute r method path = some result) ∧
      ∀ root n, r.roots method = some root →
        search (parsePattern path) root = some n →
        ∃ k, DescAt k root n ∧ (parsePattern n.pattern).length = k ∧
          k ≤ (parsePattern path).length ∧
          (∀ part ∈ parsePattern n.pattern, part ≠ []) ∧
          ∃ params, bindParams (parsePattern path) 0 (parsePattern n.pattern)
            GoMap.empty = some params := by
  obtain ⟨r, hr⟩ := addRoutes_total regs (newRouter H)
  have hinv := RouterInv_addRoutes regs _ _ hr (RouterInv_newRouter H)
  have key : ∀ root n, r.roots method = some root →
      search (parsePattern path) root = some n →
      ∃ k, DescAt k root n ∧ (parsePattern n.pattern).length = k ∧
        k ≤ (parsePattern path).length ∧
        (∀ part ∈ parsePattern n.pattern, part ≠ []) ∧
        ∃ params, bindParams (parsePattern path) 0 (parsePattern n.pattern)
          GoMap.empty = some params := by
    intro root n hroot hs
    obtain ⟨hp, k, hd, hk, -⟩ := search_some _ _ _ hs
    obtain ⟨hlen, -⟩ := hinv method root hroot k n hd hp
    exact ⟨k, hd, hlen, hk, parsePattern_ne_nil _,
      bindParams_in_bounds _ _ 0 _ (parsePattern_ne_nil _) (by omega)⟩
  refine ⟨r, hr, ?_, key⟩
  cases hroot : r.roots method with
  | none => exact ⟨none, by simp [getRoute, hroot]⟩
  | some root =>
    cases hs : search (parsePattern path) root with
    | none => exact ⟨none, by simp [getRoute, hroot, hs]⟩
    | some n =>
      obtain ⟨k, -, -, -, -, params, hb⟩ := key root n hroot hs
      exact ⟨some (n, params), by simp [getRoute, hroot, hs, hb]⟩

/-- C15 at GET `/assets/css/a/b.css` with the routes of `main`. -/
theorem C15_witness :
    ∃ r root n k params, addRoutes (newRouter Nat) mainRoutes = some r ∧
      r.roots "GET".toList = some root ∧
      search (parsePattern "/assets/css/a/b.css".toList) root = some n ∧
      DescAt k root n ∧ (parsePattern n.pattern).length = k ∧
      k ≤ (parsePattern "/assets/css/a/b.css".toList).length ∧
      bindParams (parsePattern "/assets/css/a/b.css".toList) 0 (parsePattern n.pattern)
        GoMap.empty = some params := by
  obtain ⟨r, hr, -, h⟩ :=
    C15_binding_in_bounds mainRoutes "GET".toList "/assets/css/a/b.css".toList
  have e1 : (addRoutes (newRouter Nat) mainRoutes).bind (fun r => r.roots "GET".toList)
      = some (.mk "/".toList []
          [.mk [] "hello".toList [.mk "/hello/:name".toList ":name".toList [] true] false,
           .mk [] "assets".toList
            [.mk "/assets/*filepath".toList "*filepath".toList [] true] false] false) := rfl
  rw [hr] at e1
  have e2 : search (parsePattern "/assets/css/a/b.css".toList)
      (.mk "/".toList []
          [.mk [] "hello".toList [.mk "/hello/:name".toList ":name".toList [] true] false,
           .mk [] "assets".toList
            [.mk "/assets/*filepath".toList "*filepath".toList [] true] false] false)
      = some (.mk "/assets/*filepath".toList "*filepath".toList [] true) := rfl
  obtain ⟨k, h1, h2, h3, -, params, h5⟩ := h _ _ e1 e2
  exact ⟨r, _, _, k, params, hr, e1, e2, h1, h2, h3, h5⟩

/-! ### Claim C16: the trie router refines the map router on static routes -/


theorem splitSlash_ne_nil (s : Str) : splitSlash s ≠ [] := by
  cases s with
  | nil => simp [splitSlash]
  | cons c cs =>
    simp only [splitSlash]
    split
    · simp
    · split <;> simp

/-- The call `strings.Join` undoes `strings.Split`. -/
theorem joinSlash_splitSlash (s : Str) : joinSlash (splitSlash s) = s := by
  induction s with
  | nil => rfl
  | cons c cs ih =>
    simp only [splitSlash]
    split
    · next hc =>
      subst hc
      cases hl : splitSlash cs with
      | nil => exact absurd hl (splitSlash_ne_nil cs)
      | cons y ys =>
        rw [hl] at ih
        simp [joinSlash, ih]
    · cases hl : splitSlash cs with
      | nil => exact absurd hl (splitSlash_ne_nil cs)
      | cons w ws =>
        rw [hl] at ih
        cases ws with
        | nil =>
          simp only [joinSlash] at ih ⊢
          rw [ih]
        | cons y ys =>
          simp only [joinSlash] at ih ⊢
          rw [← ih]
          simp

theorem not_star_of_not_placeholder {x : Str} (h : isPlaceholder x = false) :
    startsWithStar x = false := by
  cases hs : startsWithStar x with
  | false => rfl
  | true =>
    rw [startsWithStar_isPlaceholder hs] at h
    cases h

/-- A normalized static path is `/` followed by its parts joined with `/`,
and none of its parts is a placeholder. -/
theorem static_parts {p : Str} (h : isNormalizedStatic p = true) :
    p = '/' :: joinSlash (parsePattern p) ∧
      ∀ x ∈ parsePattern p, isPlaceholder x = false := by
  cases p with
  | nil => simp [isNormalizedStatic] at h
  | cons c rest =>
    by_cases hc : c = '/'
    · subst hc
      have hpp : parsePattern ('/' :: rest) = parseLoop (splitSlash rest) := by
        simp [parsePattern, splitSlash, parseLoop]
      simp only [isNormalizedStatic, Bool.or_eq_true, List.isEmpty_iff, List.all_eq_true,
        Bool.and_eq_true, Bool.not_eq_true', List.isEmpty_eq_false] at h
      rcases h with h | h
      · subst h
        exact ⟨by decide, by decide⟩
      · have hid : parseLoop (splitSlash rest) = splitSlash rest :=
          parseLoop_id _ (fun s hs => (h s hs).1)
            (fun s hs => not_star_of_not_placeholder (h s (List.mem_of_mem_dropLast hs)).2)
        rw [hpp, hid, joinSlash_splitSlash]
        exact ⟨rfl, fun x hx => (h x hx).2⟩
    · exfalso
      revert h
      unfold isNormalizedStatic
      split
      · next heq => cases heq; exact absurd rfl hc
      · simp

theorem static_eq_of_parts {p q : Str} (hp : isNormalizedStatic p = true)
    (hq : isNormalizedStatic q = true) (h : parsePattern p = parsePattern q) : p = q := by
  rw [(static_parts hp).1, (static_parts hq).1, h]

theorem static_ne_nil {p : Str} (hp : isNormalizedStatic p = true) : p ≠ [] := by
  rintro rfl
  simp [isNormalizedStatic] at hp

theorem compatible_of_literal :
    ∀ (xs ys : List Str), (∀ x ∈ xs, isPlaceholder x = false) →
      (∀ y ∈ ys, isPlaceholder y = false) → compatible xs ys = true := by
  intro xs
  induction xs with
  | nil => intro ys _ _; simp [compatible]
  | cons x xs ih =>
    intro ys hx hy
    cases ys with
    | nil => simp [compatible]
    | cons y ys =>
      simp only [compatible]
      split
      · exact ih ys (fun a ha => hx a (List.mem_cons_of_mem _ ha))
          (fun a ha => hy a (List.mem_cons_of_mem _ ha))
      · simp [hx x (List.mem_cons_self _ _), hy y (List.mem_cons_self _ _)]

theorem matchesParts_self :
    ∀ (xs : List Str), (∀ x ∈ xs, isPlaceholder x = false) → matchesParts xs xs = true := by
  intro xs
  induction xs with
  | nil => intro _; rfl
  | cons x xs ih =>
    intro hx
    have h1 := hx x (List.mem_cons_self _ _)
    simp [matchesParts, h1, not_star_of_not_placeholder h1,
      ih (fun a ha => hx a (List.mem_cons_of_mem _ ha))]

/-- The binding loop binds nothing for literal parts. -/
theorem bindParams_literal (searchParts : List Str) :
    ∀ (parts : List Str) (index : Nat) (params0 : GoMap Str),
      (∀ x ∈ parts, x ≠ [] ∧ isPlaceholder x = false) →
      bindParams searchParts index parts params0 = some params0 := by
  intro parts
  induction parts with
  | nil => intro _ _ _; rfl
  | cons part parts ih =>
    intro index params0 h
    obtain ⟨hne, hph⟩ := h part (List.mem_cons_self _ _)
    cases part with
    | nil => exact absurd rfl hne
    | cons c name =>
      simp only [isPlaceholder, Bool.or_eq_false_iff, beq_eq_false_iff_ne, ne_eq] at hph
      simp only [bindParams, hph.1, hph.2, if_false, false_and]
      exact ih _ _ (fun x hx => h x (List.mem_cons_of_mem _ hx))

theorem StaticTrie_zero : StaticTrie [] [] node.zero := by
  refine StaticTrie.mk _ _ ?_ ?_ (Or.inl rfl) <;> simp [node.zero]

theorem StaticTrie_mono {Q : List Str} (q0 : Str) {path : List Str} {n : node}
    (h : StaticTrie Q path n) : StaticTrie (Q ++ [q0]) path n := by
  induction h with
  | mk path n _ hlit hpattern ih =>
    refine StaticTrie.mk path n ih hlit ?_
    rcases hpattern with h | ⟨h1, h2⟩
    · exact Or.inl h
    · exact Or.inr ⟨List.mem_append_left _ h1, h2⟩

/-- Inserting a static pattern keeps a literal trie literal, and the node at
which it ends carries it. -/
theorem StaticTrie_insert {Q : List Str} (q0 : Str) :
    ∀ (rest path : List Str) (n n' : node), StaticTrie Q path n →
      parsePattern q0 = path ++ rest → (∀ x ∈ rest, isPlaceholder x = false) →
      insert q0 rest n = some n' → StaticTrie (Q ++ [q0]) path n' := by
  intro rest
  induction rest with
  | nil =>
    intro path n n' hg hq0 _ hins
    simp only [insert, Option.some.injEq] at hins
    subst hins
    rw [List.append_nil] at hq0
    cases hg with
    | mk _ _ hchildren hlit _ =>
      exact StaticTrie.mk path _ (fun c hc => StaticTrie_mono q0 (hchildren c hc)) hlit
        (Or.inr ⟨List.mem_append_right _ (List.mem_singleton_self _), hq0⟩)
  | cons x rest ih =>
    intro path n n' hg hq0 hlits hins
    have hq0' : parsePattern q0 = (path ++ [x]) ++ rest := by
      rw [hq0, List.append_assoc]; rfl
    have hx : isPlaceholder x = false := hlits x (List.mem_cons_self _ _)
    have hrest : ∀ y ∈ rest, isPlaceholder y = false :=
      fun y hy => hlits y (List.mem_cons_of_mem _ hy)
    simp only [insert] at hins
    cases hg with
    | mk _ _ hchildren hlit hpattern =>
      have hpat' : n.pattern = [] ∨
          (n.pattern ∈ Q ++ [q0] ∧ parsePattern n.pattern = path) := by
        rcases hpattern with h | ⟨h1, h2⟩
        · exact Or.inl h
        · exact Or.inr ⟨List.mem_append_left _ h1, h2⟩
      cases hm : matchChild n x with
      | some c =>
        simp only [hm, Option.map_eq_some'] at hins
        obtain ⟨c', hc', rfl⟩ := hins
        have hcmem : c ∈ n.children := List.mem_of_find?_eq_some hm
        have hcm : childMatches x c = true := List.find?_some hm
        have hcx : c.part = x := by
          simpa [childMatches, (hlit c hcmem).1] using hcm
        obtain ⟨hp', hw'⟩ := insert_part_isWild hc'
        have hgc' : StaticTrie (Q ++ [q0]) (path ++ [x]) c' :=
          ih (path ++ [x]) c c' (by rw [← hcx]; exact hchildren c hcmem) hq0' hrest hc'
        refine StaticTrie.mk path _ ?_ ?_ hpat'
        · intro d hd
          rw [node.children_setChildren] at hd
          rcases mem_replaceMatched hd with rfl | hd
          · rw [hp', hcx]; exact hgc'
          · exact StaticTrie_mono q0 (hchildren d hd)
        · intro d hd
          rw [node.children_setChildren] at hd
          rcases mem_replaceMatched hd with rfl | hd
          · rw [hp', hw']; exact hlit c hcmem
          · exact hlit d hd
      | none =>
        cases x with
        | nil => simp [hm] at hins
        | cons ch cs =>
          simp only [hm, Option.map_eq_some'] at hins
          obtain ⟨c', hc', rfl⟩ := hins
          obtain ⟨hp', hw'⟩ := insert_part_isWild hc'
          simp only [node.part_mk, node.isWild_mk] at hp' hw'
          have hwf : (ch == ':' || ch == '*') = false := hx
          have hg0 : StaticTrie Q (path ++ [ch :: cs])
              (node.mk [] (ch :: cs) [] (ch == ':' || ch == '*')) := by
            refine StaticTrie.mk _ _ (by simp) (by simp) (Or.inl rfl)
          have hgc' : StaticTrie (Q ++ [q0]) (path ++ [ch :: cs]) c' :=
            ih _ _ c' hg0 hq0' hrest hc'
          refine StaticTrie.mk path _ ?_ ?_ hpat'
          · intro d hd
            rw [node.children_setChildren] at hd
            rcases List.mem_append.1 hd with hd | hd
            · exact StaticTrie_mono q0 (hchildren d hd)
            · rw [List.mem_singleton] at hd
              subst hd
              rw [hp']; exact hgc'
          · intro d hd
            rw [node.children_setChildren] at hd
            rcases List.mem_append.1 hd with hd | hd
            · exact hlit d hd
            · rw [List.mem_singleton] at hd
              subst hd
              rw [hp', hw']
              exact ⟨hwf, not_star_of_not_placeholder hx⟩

/-- In a literal trie `search` finds only nodes whose pattern has the request
segments as its parts. -/
theorem StaticTrie_search {Q : List Str} :
    ∀ (segs path : List Str) (n x : node), StaticTrie Q path n →
      startsWithStar n.part = false → search segs n = some x →
      x.pattern ∈ Q ∧ parsePattern x.pattern = path ++ segs := by
  intro segs
  induction segs with
  | nil =>
    intro path n x hg _ hs
    obtain ⟨rfl, hp⟩ := terminal_some (by simpa [search] using hs)
    cases hg with
    | mk _ _ _ _ hpattern =>
      rcases hpattern with h | h
      · exact absurd h hp
      · simpa using h
  | cons s segs ih =>
    intro path n x hg hstar hs
    simp only [search, hstar, Bool.false_eq_true, if_false] at hs
    obtain ⟨c, hc, hf⟩ := firstResult_some hs
    obtain ⟨hcmem, hcm⟩ := List.mem_filter.1 hc
    cases hg with
    | mk _ _ hchildren hlit _ =>
      have hcs : c.part = s := by
        simpa [childMatches, (hlit c hcmem).1] using hcm
      have := ih (path ++ [c.part]) c x (hchildren c hcmem) (hlit c hcmem).2 hf
      rw [hcs, List.append_assoc] at this
      exact this

/-- The trie of `method` after a sequence of `addRoute` calls whose patterns
under `method` are static is a literal trie of those patterns. -/
theorem addRoutes_static {H : Type} (method : Str) :
    ∀ (regs : List (Reg H)) (r r' : router H) (Q : List Str),
      addRoutes r regs = some r' →
      StaticTrie Q [] ((r.roots method).getD node.zero) →
      ((r.roots method).getD node.zero).part = [] →
      (∀ q ∈ patternsOf method regs, ∀ x ∈ parsePattern q, isPlaceholder x = false) →
      StaticTrie (Q ++ patternsOf method regs) [] ((r'.roots method).getD node.zero) ∧
        ((r'.roots method).getD node.zero).part = [] := by
  intro regs
  induction regs with
  | nil =>
    intro r r' Q h hg hpart _
    simp only [addRoutes, Option.some.injEq] at h
    subst h
    simpa [patternsOf] using ⟨hg, hpart⟩
  | cons reg regs ih =>
    intro r r' Q h hg hpart hlit
    obtain ⟨m, p, h0⟩ := reg
    simp only [addRoutes] at h
    cases h1 : addRoute r m p h0 with
    | none => simp [h1] at h
    | some r1 =>
      simp only [h1] at h
      obtain ⟨⟨root1, hins, hroot1⟩, hother, -⟩ := addRoute_spec h1
      by_cases hm : m = method
      · subst hm
        rw [patternsOf_cons_same] at hlit ⊢
        have e : Q ++ p :: patternsOf m regs = (Q ++ [p]) ++ patternsOf m regs := by simp
        rw [e]
        have hg1 : StaticTrie (Q ++ [p]) [] root1 :=
          StaticTrie_insert p (parsePattern p) [] _ root1 hg (by simp)
            (hlit p (List.mem_cons_self _ _)) hins
        refine ih r1 r' (Q ++ [p]) h (by rw [hroot1]; exact hg1) ?_
          (fun q hq => hlit q (List.mem_cons_of_mem _ hq))
        rw [hroot1, Option.getD_some, (insert_part_isWild hins).1]
        exact hpart
      · rw [patternsOf_cons_other p h0 regs hm] at hlit ⊢
        have hr : r1.roots method = r.roots method := hother method (fun e => hm e.symm)
        exact ih r1 r' Q h (by rw [hr]; exact hg) (by rw [hr]; exact hpart) hlit

theorem routeKey_inj_pattern {method p p' : Str}
    (h : routeKey method p = routeKey method p') : p = p' := by
  have := List.append_cancel_left h
  simpa using this

theorem mem_patternsOf {H : Type} {method q : Str} {regs : List (Reg H)}
    (h : q ∈ patternsOf method regs) : ∃ reg ∈ regs, reg.1 = method ∧ reg.2.1 = q := by
  simp only [patternsOf, List.mem_map, List.mem_filter, decide_eq_true_eq] at h
  obtain ⟨reg, ⟨h1, h2⟩, h3⟩ := h
  exact ⟨reg, h1, h2, h3⟩

theorem lastRegistered_none {H : Type} {method pattern : Str} :
    ∀ regs : List (Reg H), lastRegistered regs method pattern = none →
      pattern ∉ patternsOf method regs := by
  intro regs
  induction regs with
  | nil => intro _ h; simp [patternsOf] at h
  | cons reg regs ih =>
    intro h hin
    obtain ⟨m, p, h0⟩ := reg
    simp only [lastRegistered] at h
    cases hl : lastRegistered regs method pattern with
    | some h' => simp [hl] at h
    | none =>
      simp only [hl] at h
      by_cases hmp : m = method ∧ p = pattern
      · simp [hmp] at h
      · obtain ⟨reg, hreg, h1, h2⟩ := mem_patternsOf hin
        rcases List.mem_cons.1 hreg with rfl | hreg
        · exact hmp ⟨h1, h2⟩
        · apply ih hl
          simp only [patternsOf, List.mem_map, List.mem_filter, decide_eq_true_eq]
          exact ⟨reg, ⟨hreg, h1⟩, h2⟩

/-- The route map of demo5 after a sequence of `addRoute` calls under one
method, at a key of that method. -/
theorem demo5_addRoutes_router {H : Type} (method pattern : Str) :
    ∀ (regs : List (Reg H)) (engine : Demo5.Engine H),
      (∀ reg ∈ regs, reg.1 = method) →
      (Demo5.addRoutes engine regs).router (routeKey method pattern) =
        match lastRegistered regs method pattern with
        | some h => some h
        | none => engine.router (routeKey method pattern) := by
  intro regs
  induction regs with
  | nil => intro engine _; rfl
  | cons reg regs ih =>
    intro engine hm
    obtain ⟨m, p, h0⟩ := reg
    have hmm : m = method := hm (m, p, h0) (List.mem_cons_self _ _)
    subst hmm
    simp only [Demo5.addRoutes, lastRegistered]
    rw [ih _ (fun reg hreg => hm reg (List.mem_cons_of_mem _ hreg))]
    cases hl : lastRegistered regs m pattern with
    | some h' => rfl
    | none =>
      simp only [Demo5.addRoute, GoMap.set]
      by_cases hp : p = pattern
      · subst hp
        simp
      · have hk : routeKey m pattern ≠ routeKey m p :=
          fun e => hp (routeKey_inj_pattern e).symm
        simp [hk, hp]

/-- C16. For static routes the trie router refines the map router: after the
same registrations, all under one method and with normalized static patterns,
for every normalized static request path under that method the `ServeHTTP` of
demo6 calls, with no params bound, the very handler that the `ServeHTTP` of
demo5 calls, and answers 404 when demo5 answers 404. -/
theorem C16_static_refines_map {H : Type} (method : Str) (regs : List (Reg H))
    (path : Str)
    (hmethod : ∀ reg ∈ regs, reg.1 = method)
    (hstatic : ∀ reg ∈ regs, isNormalizedStatic reg.2.1 = true)
    (hpath : isNormalizedStatic path = true) :
    ∃ r, addRoutes (newRouter H) regs = some r ∧
      ServeHTTP r method path = some
        (match Demo5.ServeHTTP (Demo5.addRoutes (Demo5.New H) regs) method path with
          | .handled handler => Response.handled handler GoMap.empty
          | .notFound => Response.notFound) := by
  obtain ⟨r, hr⟩ := addRoutes_total regs (newRouter H)
  refine ⟨r, hr, ?_⟩
  have hQ : ∀ q ∈ patternsOf method regs, isNormalizedStatic q = true := by
    intro q hq
    obtain ⟨reg, hreg, -, h2⟩ := mem_patternsOf hq
    rw [← h2]
    exact hstatic reg hreg
  have hmap := demo5_addRoutes_router method path regs (Demo5.New H) hmethod
  cases hl : lastRegistered regs method path with
  | some handler =>
    rw [hl] at hmap
    have hmem : path ∈ patternsOf method regs := lastRegistered_mem regs hl
    have hcompat : ∀ q ∈ patternsOf method regs, ∀ q' ∈ patternsOf method regs,
        compatible (parsePattern q) (parsePattern q') = true :=
      fun q hq q' hq' =>
        compatible_of_literal _ _ (static_parts (hQ q hq)).2 (static_parts (hQ q' hq')).2
    obtain ⟨hgood, hpart, hsome⟩ := addRoutes_good method regs _ r [] hr
      (by simpa [newRouter, GoMap.empty] using Good_zero)
      (by simp [newRouter, GoMap.empty, node.zero])
      (by simp) (by simpa using hcompat)
    rw [List.nil_append] at hgood hsome
    obtain ⟨root, hroot⟩ := Option.isSome_iff_exists.1 (hsome (List.ne_nil_of_mem hmem))
    rw [hroot, Option.getD_some] at hgood hpart
    obtain ⟨n, hsearch, hnp⟩ := good_search (fun q hq => hcompat q hq path hmem)
      (fun q hq e => static_eq_of_parts (hQ q hq) hpath e) hmem (static_ne_nil hpath)
      (parsePattern path) (parsePattern path) [] root hgood (by simp)
      (matchesParts_self _ (static_parts hpath).2) (fun _ => by rw [hpart]; rfl)
    have hbind := bindParams_literal (parsePattern path) (parsePattern path) 0 GoMap.empty
      (fun x hx => ⟨parsePattern_ne_nil path x hx, (static_parts hpath).2 x hx⟩)
    have hh := addRoutes_handlers method path regs _ r hr
      (fun reg hreg e => by
        have h1 := hmethod reg hreg
        rw [h1] at e
        exact ⟨h1, routeKey_inj_pattern e⟩)
    rw [hl] at hh
    have hget : getRoute r method path = some (some (n, GoMap.empty)) := by
      simp [getRoute, hroot, hsearch, hnp, hbind]
    simp [ServeHTTP, hget, hnp, hh, Demo5.ServeHTTP, hmap]
  | none =>
    rw [hl] at hmap
    have hnot : path ∉ patternsOf method regs := lastRegistered_none regs hl
    have hget : getRoute r method path = some none := by
      cases hroot : r.roots method with
      | none => simp [getRoute, hroot]
      | some root =>
        obtain ⟨hst, hpart⟩ := addRoutes_static method regs _ r [] hr
          (by simpa [newRouter, GoMap.empty] using StaticTrie_zero)
          (by simp [newRouter, GoMap.empty, node.zero])
          (fun q hq => (static_parts (hQ q hq)).2)
        rw [List.nil_append, hroot, Option.getD_some] at hst
        rw [hroot, Option.getD_some] at hpart
        cases hs : search (parsePattern path) root with
        | none => simp [getRoute, hroot, hs]
        | some x =>
          exfalso
          obtain ⟨h1, h2⟩ := StaticTrie_search _ [] root x hst (by rw [hpart]; rfl) hs
          rw [List.nil_append] at h2
          have := static_eq_of_parts (hQ _ h1) hpath h2
          rw [this] at h1
          exact hnot h1
    have hmap' : (Demo5.addRoutes (Demo5.New H) regs).router (routeKey method path) = none :=
      hmap
    simp [ServeHTTP, hget, Demo5.ServeHTTP, hmap']

/-- C16 at the request `/api/student` under GET, with the routes `/hello`,
`/api/student` and again `/hello` registered under GET. -/
theorem C16_witness :
    ∃ r, addRoutes (newRouter Nat)
        [("GET".toList, "/hello".toList, 1), ("GET".toList, "/api/student".toList, 2),
         ("GET".toList, "/hello".toList, 3)] = some r ∧
      ServeHTTP r "GET".toList "/api/student".toList = some
        (match Demo5.ServeHTTP (Demo5.addRoutes (Demo5.New Nat)
            [("GET".toList, "/hello".toList, 1), ("GET".toList, "/api/student".toList, 2),
             ("GET".toList, "/hello".toList, 3)]) "GET".toList "/api/student".toList with
          | .handled handler => Response.handled handler GoMap.empty
          | .notFound => Response.notFound) :=
  C16_static_refines_map "GET".toList
    [("GET".toList, "/hello".toList, 1), ("GET".toList, "/api/student".toList, 2),
     ("GET".toList, "/hello".toList, 3)] "/api/student".toList
    (by decide) (by decide) (by decide)

end Gee
